import Mathlib

/-!
Verification of core claims about the `wtx` networking library: WebSocket
frame-header parsing, Postgres wire encodings (unsigned integers, numeric),
the prepared-statement cache, the simple-query loop, the HTTP/2
client-framework `recv`, and `DbError` parsing.

Machine integers are embedded as `Nat`/`Int` with explicit bounds; fallible
code returns `Except`; byte buffers are `List Nat` with each element below
256 where it matters.
-/

namespace Wtx

/-! ## Byte-level helpers -/

/-- Little-endian base-256 digits of `v`, exactly `n` bytes (truncating). -/
def leBytes : Nat → Nat → List Nat
  | 0, _ => []
  | n + 1, v => v % 256 :: leBytes n (v / 256)

/-- Big-endian byte encoding of `v` on `n` bytes (`uN::to_be_bytes`). -/
def beBytes (n v : Nat) : List Nat :=
  (leBytes n v).reverse

/-- Value of a little-endian byte list. -/
def leVal : List Nat → Nat
  | [] => 0
  | b :: rest => b + 256 * leVal rest

/-- Value of a big-endian byte list (`uN::from_be_bytes`). -/
def beVal (bs : List Nat) : Nat :=
  leVal bs.reverse

theorem leBytes_length (n v : Nat) : (leBytes n v).length = n := by
  induction n generalizing v with
  | zero => rfl
  | succ n ih => simp [leBytes, ih]

theorem beBytes_length (n v : Nat) : (beBytes n v).length = n := by
  simp [beBytes, leBytes_length]

theorem leVal_leBytes (n v : Nat) : leVal (leBytes n v) = v % 256 ^ n := by
  induction n generalizing v with
  | zero => simp [leBytes, leVal, Nat.mod_one]
  | succ n ih =>
    rw [leBytes, leVal, ih, pow_succ']
    exact Nat.mod_mul.symm

theorem beVal_beBytes (n v : Nat) : beVal (beBytes n v) = v % 256 ^ n := by
  rw [beBytes, beVal, List.reverse_reverse, leVal_leBytes]

theorem beVal_beBytes_of_lt {n v : Nat} (h : v < 256 ^ n) :
    beVal (beBytes n v) = v := by
  rw [beVal_beBytes, Nat.mod_eq_of_lt h]

/-- Two's-complement reading of a big-endian byte list of width `n` bytes
(`iN::from_be_bytes`). -/
def intOfBe (n : Nat) (bs : List Nat) : Int :=
  let u := beVal bs
  if u < 2 ^ (8 * n - 1) then (u : Int) else (u : Int) - 2 ^ (8 * n)

/-- Two's-complement big-endian bytes of a signed 16-bit value
(`i16::to_be_bytes`). -/
def i16ToBeBytes (x : Int) : List Nat :=
  beBytes 2 (x % 65536).toNat

/-- `i16::from_be_bytes`. -/
def i16FromBeBytes (bs : List Nat) : Int :=
  intOfBe 2 bs

theorem i16_roundtrip {x : Int} (h1 : -32768 ≤ x) (h2 : x < 32768) :
    i16FromBeBytes (i16ToBeBytes x) = x := by
  have hnonneg : 0 ≤ x % 65536 := Int.emod_nonneg x (by norm_num)
  have hlt : x % 65536 < 65536 := Int.emod_lt_of_pos x (by norm_num)
  have hval : beVal (beBytes 2 (x % 65536).toNat) = (x % 65536).toNat := by
    apply beVal_beBytes_of_lt
    omega
  unfold i16FromBeBytes i16ToBeBytes intOfBe
  rw [hval]
  norm_num
  split <;> omega

/-! ## Errors

One inductive covering the error variants of `crate::Error`,
`WebSocketError`, `PostgresError` and `DatabaseError` that the verified
code paths can produce. -/

inductive Err where
  | UnexpectedBufferState
  | UnexpectedStreamReadEOF
  | UnexpectedFragmentedControlFrame
  | VeryLargeControlFrame
  | VeryLargePayload
  | InvalidCompressionHeaderParameter
  | InvalidMaskBit
  | InvalidOpCodeByte (received : Nat)
  | UnexpectedBufferSize (expected : Nat) (received : Nat)
  | InvalidPostgresUint
  | VeryLargeDecimal
  | DecimalCanNotBeConvertedFromNaN
  | MiscUnexpectedUint (received : Nat)
  | MiscOutOfBoundsArithmetic
  | UnexpectedDatabaseMessage (tag : Nat)
  | UnexpectedString (length : Nat)
  | InsufficientDbErrorBytes
  | UnexpectedUint (received : Nat)
  | InvalidSqlStateBytes
  | InvalidSeverityBytes
  | AtoiInvalidBytes
  | NoInnerValue
  | PostgresDbError (err : Nat)
  | TryFromIntError
  | CapacityOverflow
  deriving DecidableEq, Repr

/-! ## WebSocket frame-header parsing (`web_socket/read_frame_info.rs`) -/

/-- Modelled from the spec: the RFC 6455 first-byte masks used by
`read_frame_info.rs`; the constants live in the `web_socket` module root,
which is not part of the provided sources. -/
def FIN_MASK : Nat := 0x80

/-- Modelled from the spec: RSV1 bit mask. -/
def RSV1_MASK : Nat := 0x40

/-- Modelled from the spec: RSV2 bit mask. -/
def RSV2_MASK : Nat := 0x20

/-- Modelled from the spec: RSV3 bit mask. -/
def RSV3_MASK : Nat := 0x10

/-- Modelled from the spec: low 7 bits of the second header byte. -/
def PAYLOAD_MASK : Nat := 0x7F

/-- Modelled from the spec: control frames carry at most 125 payload bytes. -/
def MAX_CONTROL_PAYLOAD_LEN : Nat := 125

/-- WebSocket opcodes. -/
inductive OpCode where
  | Continuation
  | Text
  | Binary
  | Close
  | Ping
  | Pong
  deriving DecidableEq, Repr

/-- Modelled from the spec: `OpCode::is_control` (control frames are Close,
Ping and Pong); `web_socket/misc.rs` is not part of the provided sources. -/
def OpCode.is_control : OpCode → Bool
  | .Close | .Ping | .Pong => true
  | _ => false

/-- Modelled from the spec: `web_socket::misc::op_code` extracts the low
nibble of the first header byte and rejects unknown opcodes. -/
def op_code (a : Nat) : Except Err OpCode :=
  match a &&& 0x0F with
  | 0 => .ok .Continuation
  | 1 => .ok .Text
  | 2 => .ok .Binary
  | 8 => .ok .Close
  | 9 => .ok .Ping
  | 10 => .ok .Pong
  | other => .error (.InvalidOpCodeByte other)

/-- Modelled from the spec: `web_socket::misc::has_masked_frame` tests the
high bit of the second header byte. -/
def has_masked_frame (b : Nat) : Bool :=
  b &&& 0x80 != 0

/-- Modelled from the spec: the `NegotiatedCompression` capability, reduced
to the two observations `read_frame_info.rs` makes of it: the associated
constant `IS_NOOP` and the method `rsv1()`. -/
structure NegotiatedCompression where
  is_noop : Bool
  rsv1 : Nat
  deriving DecidableEq, Repr

/-- The no-op negotiated compression (`()` in the source): permessage-deflate
was not negotiated, so its `rsv1()` is zero. Modelled from the spec. -/
def noopCompression : NegotiatedCompression :=
  { is_noop := true, rsv1 := 0 }

/-- Parsed frame parameters (`ReadFrameInfo`). -/
structure ReadFrameInfo where
  fin : Bool
  header_len : Nat
  mask : Option (List Nat)
  op_code : OpCode
  payload_len : Nat
  should_decompress : Bool
  deriving DecidableEq, Repr

/-- `ReadFrameInfo::manage_first_two_bytes`. -/
def manage_first_two_bytes (a b : Nat) (nc : NegotiatedCompression) :
    Except Err (Bool × Nat × Bool × OpCode × Bool) := do
  let rsv1 := a &&& RSV1_MASK
  let rsv2 := a &&& RSV2_MASK
  let rsv3 := a &&& RSV3_MASK
  if rsv2 ≠ 0 ∨ rsv3 ≠ 0 then
    throw .InvalidCompressionHeaderParameter
  let should_decompress ←
    if nc.is_noop then
      pure false
    else if nc.rsv1 == 0 then
      if rsv1 ≠ 0 then
        throw Err.InvalidCompressionHeaderParameter
      else
        pure false
    else
      pure (rsv1 != 0)
  let fin := a &&& FIN_MASK != 0
  let length_code := b &&& PAYLOAD_MASK
  let masked := has_masked_frame b
  let op ← op_code a
  return (fin, length_code, masked, op, should_decompress)

/-- `ReadFrameInfo::manage_mask`. -/
def manage_mask (is_client : Bool) (masked no_masking : Bool) :
    Except Err Bool :=
  if is_client then
    .ok false
  else if no_masking then
    if masked then .error .InvalidMaskBit else .ok false
  else
    if !masked then .error .InvalidMaskBit else .ok true

/-- `ReadFrameInfo::manage_final_params`. -/
def manage_final_params (fin : Bool) (op : OpCode)
    (max_payload_len payload_len : Nat) : Except Err Unit := do
  if op.is_control ∧ ¬fin then
    throw .UnexpectedFragmentedControlFrame
  if op = OpCode.Ping ∧ payload_len > MAX_CONTROL_PAYLOAD_LEN then
    throw Err.VeryLargeControlFrame
  if payload_len ≥ max_payload_len then
    throw Err.VeryLargePayload
  return ()

/-- `ReadFrameInfo::from_bytes`. The `&mut &[u8]` argument becomes an input
list plus the returned remainder; the `u64 → usize` `try_into` of the
extended length is the identity because the embedding models a 64-bit
target, where `usize::try_from(u64)` always succeeds. -/
def fromBytes (is_client : Bool) (bytes : List Nat) (max_payload_len : Nat)
    (nc : NegotiatedCompression) (no_masking : Bool) :
    Except Err (ReadFrameInfo × List Nat) := do
  match bytes with
  | a :: b :: rest => do
    let (fin, length_code, masked, op, should_decompress) ←
      manage_first_two_bytes a b nc
    let (header_len, payload_len, rest2) ←
      match length_code, rest with
      | 126, x :: y :: rest2 => pure (4, beVal [x, y], rest2)
      | 126, _ => throw Err.UnexpectedBufferState
      | 127, x0 :: x1 :: x2 :: x3 :: x4 :: x5 :: x6 :: x7 :: rest2 =>
          pure (10, beVal [x0, x1, x2, x3, x4, x5, x6, x7], rest2)
      | 127, _ => throw Err.UnexpectedBufferState
      | other, rest2 => pure (2, other, rest2)
    let (header_len, mask, rest3) ←
      match ← manage_mask is_client masked no_masking, rest2 with
      | true, m0 :: m1 :: m2 :: m3 :: rest3 =>
          pure (header_len + 4, some [m0, m1, m2, m3], rest3)
      | true, _ => throw Err.UnexpectedBufferState
      | false, rest3 => pure (header_len, none, rest3)
    manage_final_params fin op max_payload_len payload_len
    return (⟨fin, header_len, mask, op, payload_len, should_decompress⟩, rest3)
  | _ => throw Err.UnexpectedBufferState

/-- Modelled from the spec: the `_read_until` primitive of the buffer
fabric — wait until `read ≥ K + N` and return the `N`-byte window starting
at offset `K`; stream EOF with fewer bytes is a fatal error. The stream is
embedded as the list of bytes it will deliver. -/
def readUntil (N K : Nat) (avail : List Nat) : Except Err (List Nat) :=
  if K + N ≤ avail.length then .ok ((avail.drop K).take N)
  else .error .UnexpectedStreamReadEOF

/-- `ReadFrameInfo::from_stream`, with the stream embedded as the list of
bytes it will deliver. -/
def fromStream (is_client : Bool) (max_payload_len : Nat)
    (nc : NegotiatedCompression) (avail : List Nat) (no_masking : Bool) :
    Except Err ReadFrameInfo := do
  let first_two ← readUntil 2 0 avail
  let (a, b) ←
    match first_two with
    | [a, b] => pure (a, b)
    | _ => throw Err.UnexpectedBufferState
  let (fin, length_code, masked, op, should_decompress) ←
    manage_first_two_bytes a b nc
  let (header_len, payload_len) ←
    match length_code with
    | 126 => do
        let w ← readUntil 2 2 avail
        pure (4, beVal w)
    | 127 => do
        let w ← readUntil 8 2 avail
        pure (10, beVal w)
    | other => pure (2, other)
  let (header_len, mask) ←
    match ← manage_mask is_client masked no_masking with
    | true => do
        let m ← readUntil 4 header_len avail
        pure (header_len + 4, some m)
    | false => pure (header_len, none)
  manage_final_params fin op max_payload_len payload_len
  return ⟨fin, header_len, mask, op, payload_len, should_decompress⟩

theorem except_error_bind {ε α β : Type} (e : ε) (f : α → Except ε β) :
    (Except.error e >>= f) = Except.error e := rfl

theorem except_ok_bind {ε α β : Type} (x : α) (f : α → Except ε β) :
    (Except.ok x >>= f) = f x := rfl

theorem manage_first_two_bytes_rsv23 {a b : Nat} {nc : NegotiatedCompression}
    (h : a &&& RSV2_MASK ≠ 0 ∨ a &&& RSV3_MASK ≠ 0) :
    manage_first_two_bytes a b nc = .error .InvalidCompressionHeaderParameter := by
  unfold manage_first_two_bytes
  simp only [if_pos h]
  rfl

theorem manage_first_two_bytes_rsv1 {a b : Nat} {nc : NegotiatedCompression}
    (h1 : a &&& RSV1_MASK ≠ 0) (h2 : nc.is_noop = false) (h3 : nc.rsv1 = 0) :
    manage_first_two_bytes a b nc = .error .InvalidCompressionHeaderParameter := by
  unfold manage_first_two_bytes
  by_cases hc : a &&& RSV2_MASK ≠ 0 ∨ a &&& RSV3_MASK ≠ 0
  · simp only [if_pos hc]
    rfl
  · simp only [if_neg hc, h2, h3, Bool.false_eq_true, if_neg not_false, beq_self_eq_true,
      if_pos h1]
    rfl

/-- C2: the claim states that every control frame (Close, Ping or Pong) whose
payload length exceeds 125 bytes is rejected with a protocol error. The code
applies the `MAX_CONTROL_PAYLOAD_LEN` check only to `Ping`: a Close frame with
a 126-byte payload (header bytes `88 7E 00 7E`, client role, generous
`max_payload_len`) is accepted by both `from_bytes` and `from_stream`, even
though the error variant is named `VeryLargeControlFrame` and the adjacent
`fin` check covers all control opcodes via `is_control`. This theorem
evaluates both parsers at that failing input. -/
theorem C2_close_frame_payload_126_accepted :
    fromBytes true [0x88, 0x7E, 0x00, 0x7E] 1000 noopCompression false =
      .ok (⟨true, 4, none, .Close, 126, false⟩, []) ∧
    fromStream true 1000 noopCompression [0x88, 0x7E, 0x00, 0x7E] false =
      .ok ⟨true, 4, none, .Close, 126, false⟩ := by
  constructor <;> rfl

/-- C5 counterexample: the claim states that a frame with `rsv1 = 1` fails
with a protocol error whenever the negotiated compression capability's
`rsv1()` is zero. With the no-op capability (`IS_NOOP = true`, `rsv1() = 0`)
the source skips the check entirely: the frame `C1 00` (fin, rsv1 set, Text
opcode) parses successfully. -/
theorem C5_counterexample :
    noopCompression.rsv1 = 0 ∧ 0xC1 &&& RSV1_MASK ≠ 0 ∧
    fromBytes true [0xC1, 0x00] 10 noopCompression false =
      .ok (⟨true, 2, none, .Text, 0, false⟩, []) := by
  refine ⟨rfl, by decide, rfl⟩

/-- C5 (amended): for every frame header, `rsv2 ≠ 0` or `rsv3 ≠ 0` makes both
parsers fail with `InvalidCompressionHeaderParameter`; and `rsv1 = 1` makes
them fail with the same error provided the negotiated compression capability
is not the no-op one and its `rsv1()` is zero (with the no-op capability the
rsv1 bit is ignored, see the counterexample). -/
theorem C5_rsv_bits_protocol_error (is_client : Bool) (a b : Nat)
    (rest : List Nat) (max_payload_len : Nat) (nc : NegotiatedCompression)
    (no_masking : Bool) :
    (a &&& RSV2_MASK ≠ 0 ∨ a &&& RSV3_MASK ≠ 0 →
      fromBytes is_client (a :: b :: rest) max_payload_len nc no_masking =
        .error .InvalidCompressionHeaderParameter ∧
      fromStream is_client max_payload_len nc (a :: b :: rest) no_masking =
        .error .InvalidCompressionHeaderParameter) ∧
    (a &&& RSV1_MASK ≠ 0 → nc.is_noop = false → nc.rsv1 = 0 →
      fromBytes is_client (a :: b :: rest) max_payload_len nc no_masking =
        .error .InvalidCompressionHeaderParameter ∧
      fromStream is_client max_payload_len nc (a :: b :: rest) no_masking =
        .error .InvalidCompressionHeaderParameter) := by
  have hread : readUntil 2 0 (a :: b :: rest) = .ok [a, b] := by
    simp [readUntil]
  constructor
  · intro h
    constructor
    · simp [fromBytes, manage_first_two_bytes_rsv23 h, except_error_bind, except_ok_bind]
    · simp [fromStream, hread, manage_first_two_bytes_rsv23 h, except_error_bind, except_ok_bind]
  · intro h1 h2 h3
    constructor
    · simp [fromBytes, manage_first_two_bytes_rsv1 h1 h2 h3, except_error_bind, except_ok_bind]
    · simp [fromStream, hread, manage_first_two_bytes_rsv1 h1 h2 h3, except_error_bind, except_ok_bind]

/-- C5 witness: the amended theorem applied at concrete inputs — rsv2 set with
the no-op capability, and rsv1 set with a non-no-op capability whose `rsv1()`
is zero. -/
theorem C5_rsv_bits_protocol_error_witness :
    fromBytes true [0xA1, 0x00] 10 noopCompression false =
      .error .InvalidCompressionHeaderParameter ∧
    fromBytes true [0xC1, 0x00] 10 ⟨false, 0⟩ false =
      .error .InvalidCompressionHeaderParameter :=
  ⟨((C5_rsv_bits_protocol_error true 0xA1 0x00 [] 10 noopCompression false).1
      (Or.inl (by decide))).1,
   ((C5_rsv_bits_protocol_error true 0xC1 0x00 [] 10 ⟨false, 0⟩ false).2
      (by decide) rfl rfl).1⟩

/-- C6 counterexample: the claim states that an 8-byte extended length
`≥ 2^63` is rejected with an error by `from_bytes` and `from_stream`. On the
64-bit embedding the `u64 → usize` conversion never fails: a Binary frame
whose extended length is exactly `2^63`, with `max_payload_len = 2^63 + 1`,
is accepted by both parsers. -/
theorem C6_counterexample :
    fromBytes true (0x82 :: 0x7F :: beBytes 8 (2 ^ 63)) (2 ^ 63 + 1)
        noopCompression false =
      .ok (⟨true, 10, none, .Binary, 2 ^ 63, false⟩, []) ∧
    fromStream true (2 ^ 63 + 1) noopCompression
        (0x82 :: 0x7F :: beBytes 8 (2 ^ 63)) false =
      .ok ⟨true, 10, none, .Binary, 2 ^ 63, false⟩ := by
  constructor <;> rfl

/-- C6 (amended): for every frame whose 7-bit length code is 127, the 8-byte
extended length is read as a u64 big-endian value; on the 64-bit embedding the
`usize` conversion never fails, so no `≥ 2^63` rejection exists — the value is
rejected (with `VeryLargePayload`) exactly when it reaches `max_payload_len`,
in both `from_bytes` and `from_stream`. Stated for the client role (no mask
bytes follow) and a non-control opcode, so that no other check interferes. -/
theorem C6_extended_length_checked_against_max (a b : Nat)
    (x0 x1 x2 x3 x4 x5 x6 x7 : Nat) (rest : List Nat)
    (max_payload_len : Nat) (nc : NegotiatedCompression) (no_masking : Bool)
    (fin masked : Bool) (op : OpCode) (sd : Bool)
    (hparse : manage_first_two_bytes a b nc = .ok (fin, 127, masked, op, sd))
    (hctrl : op.is_control = false) :
    (fromBytes true (a :: b :: x0 :: x1 :: x2 :: x3 :: x4 :: x5 :: x6 :: x7 :: rest)
        max_payload_len nc no_masking =
      if beVal [x0, x1, x2, x3, x4, x5, x6, x7] < max_payload_len then
        .ok (⟨fin, 10, none, op, beVal [x0, x1, x2, x3, x4, x5, x6, x7], sd⟩, rest)
      else .error .VeryLargePayload) ∧
    (fromStream true max_payload_len nc
        (a :: b :: x0 :: x1 :: x2 :: x3 :: x4 :: x5 :: x6 :: x7 :: rest) no_masking =
      if beVal [x0, x1, x2, x3, x4, x5, x6, x7] < max_payload_len then
        .ok ⟨fin, 10, none, op, beVal [x0, x1, x2, x3, x4, x5, x6, x7], sd⟩
      else .error .VeryLargePayload) := by
  have hping : op ≠ OpCode.Ping := by
    intro h
    subst h
    simp [OpCode.is_control] at hctrl
  have hfinal : manage_final_params fin op max_payload_len
      (beVal [x0, x1, x2, x3, x4, x5, x6, x7]) =
      if beVal [x0, x1, x2, x3, x4, x5, x6, x7] < max_payload_len then .ok ()
      else .error .VeryLargePayload := by
    unfold manage_final_params
    simp only [hctrl, Bool.false_eq_true, false_and, if_neg not_false, hping, and_false]
    by_cases h : beVal [x0, x1, x2, x3, x4, x5, x6, x7] ≥ max_payload_len
    · rw [if_pos h, if_neg (by omega)]
      rfl
    · rw [if_neg h, if_pos (by omega)]
      rfl
  constructor
  · simp only [fromBytes, hparse, except_ok_bind, manage_mask, if_pos trivial]
    by_cases h : beVal [x0, x1, x2, x3, x4, x5, x6, x7] < max_payload_len
    · simp [hfinal, h, Except.map]
    · simp [hfinal, h, Except.map]
  · have hr1 : readUntil 2 0
        (a :: b :: x0 :: x1 :: x2 :: x3 :: x4 :: x5 :: x6 :: x7 :: rest) = .ok [a, b] := by
      unfold readUntil
      rw [if_pos (by simp)]
      rfl
    have hr8 : readUntil 8 2
        (a :: b :: x0 :: x1 :: x2 :: x3 :: x4 :: x5 :: x6 :: x7 :: rest) =
        .ok [x0, x1, x2, x3, x4, x5, x6, x7] := by
      unfold readUntil
      rw [if_pos (by simp)]
      rfl
    simp only [fromStream, hr1, except_ok_bind, pure_bind]
    rw [hparse]
    simp only [except_ok_bind, pure_bind, hr8, manage_mask, if_pos trivial]
    by_cases h : beVal [x0, x1, x2, x3, x4, x5, x6, x7] < max_payload_len
    · simp [hfinal, h, Except.map]
    · simp [hfinal, h, Except.map]

/-- C6 witness: the amended theorem applied at the concrete frame
`82 7F` followed by the big-endian bytes of `2^63`, with
`max_payload_len = 2^63 + 1` (accepted) — the hypotheses are discharged by
evaluation. -/
theorem C6_extended_length_checked_against_max_witness :
    fromBytes true [0x82, 0x7F, 0x80, 0, 0, 0, 0, 0, 0, 0] (2 ^ 63 + 1)
        noopCompression false =
      .ok (⟨true, 10, none, .Binary, beVal [0x80, 0, 0, 0, 0, 0, 0, 0], false⟩, []) := by
  have h := (C6_extended_length_checked_against_max 0x82 0x7F 0x80 0 0 0 0 0 0 0 []
    (2 ^ 63 + 1) noopCompression false true false .Binary false (by rfl) (by rfl)).1
  rw [h, if_pos (by decide)]

/-! ## Postgres unsigned integers (`database/client/postgres/tys.rs`,
`impl_integer_from_array` / `impl_primitive_from_array`) -/

/-- `Encode<Postgres> for uN` (width `n` bytes): reject values whose high bit
is set (`*self >> (BITS - 1) == 1`), else emit `to_be_bytes`. -/
def encode_uint (n v : Nat) : Except Err (List Nat) :=
  if v >>> (8 * n - 1) == 1 then .error .InvalidPostgresUint
  else .ok (beBytes n v)

/-- `Decode<Postgres> for iN` (width `n` bytes): require exactly `n` bytes,
then `iN::from_be_bytes`. -/
def decode_int (n : Nat) (bytes : List Nat) : Except Err Int :=
  if bytes.length = n then .ok (intOfBe n bytes)
  else .error (.UnexpectedBufferSize n bytes.length)

/-- `Decode<Postgres> for uN`: decode as `iN`, then `try_into` which fails
exactly on negative values, mapped to `InvalidPostgresUint`. -/
def decode_uint (n : Nat) (bytes : List Nat) : Except Err Nat := do
  match decode_int n bytes with
  | .error e => throw e
  | .ok i => if i < 0 then throw Err.InvalidPostgresUint else return i.toNat

theorem pow256_eq (n : Nat) : (256 : Nat) ^ n = 2 ^ (8 * n) := by
  rw [show (256 : Nat) = 2 ^ 8 from rfl, ← pow_mul]

/-- C4: for each of the widths of u8/u16/u32/u64 (`n` bytes, `8n` bits) and
every in-range value `v < 2^(8n)`: encode succeeds exactly when the sign bit
is clear, and then produces the big-endian bytes (which coincide with the
two's-complement encoding of the same-width signed integer); decoding those
bytes returns `v`; and decoding any `n`-byte wire value whose sign bit is set
fails with `InvalidPostgresUint`. -/
theorem C4_uint_encode_decode (n v : Nat)
    (hn : n = 1 ∨ n = 2 ∨ n = 4 ∨ n = 8) (hv : v < 2 ^ (8 * n)) :
    ((∃ bs, encode_uint n v = .ok bs) ↔ v < 2 ^ (8 * n - 1)) ∧
    (v < 2 ^ (8 * n - 1) →
      encode_uint n v = .ok (beBytes n v) ∧
      decode_uint n (beBytes n v) = .ok v) ∧
    (∀ bs : List Nat, bs.length = n → 2 ^ (8 * n - 1) ≤ beVal bs →
      beVal bs < 2 ^ (8 * n) → decode_uint n bs = .error .InvalidPostgresUint) := by
  have hn1 : 1 ≤ n := by rcases hn with h | h | h | h <;> omega
  have hsplit : 2 ^ (8 * n) = 2 ^ (8 * n - 1) * 2 := by
    rw [← pow_succ]
    congr 1
    omega
  have hshift : v >>> (8 * n - 1) = v / 2 ^ (8 * n - 1) := Nat.shiftRight_eq_div_pow v _
  have hshift_one : (v >>> (8 * n - 1) == 1) = true ↔ ¬ v < 2 ^ (8 * n - 1) := by
    rw [beq_iff_eq, hshift]
    constructor
    · intro h hlt
      rw [Nat.div_eq_of_lt hlt] at h
      exact absurd h (by norm_num)
    · intro h
      have hge : 2 ^ (8 * n - 1) ≤ v := by omega
      have hlt2 : v < 2 ^ (8 * n - 1) * 2 := by omega
      have h1 : 1 ≤ v / 2 ^ (8 * n - 1) := (Nat.le_div_iff_mul_le (by positivity)).2 (by omega)
      have h2 : v / 2 ^ (8 * n - 1) < 2 := Nat.div_lt_of_lt_mul (by omega)
      omega
  refine ⟨?_, ?_, ?_⟩
  · constructor
    · rintro ⟨bs, hbs⟩
      by_contra hlt
      rw [encode_uint, if_pos (hshift_one.2 hlt)] at hbs
      exact Except.noConfusion hbs
    · intro hlt
      refine ⟨beBytes n v, ?_⟩
      rw [encode_uint, if_neg ?_]
      intro hcontra
      exact (hshift_one.1 hcontra) hlt
  · intro hlt
    have henc : encode_uint n v = .ok (beBytes n v) := by
      rw [encode_uint, if_neg ?_]
      intro hcontra
      exact (hshift_one.1 hcontra) hlt
    refine ⟨henc, ?_⟩
    have hbv : beVal (beBytes n v) = v := by
      apply beVal_beBytes_of_lt
      rw [pow256_eq]
      exact hv
    have hint : intOfBe n (beBytes n v) = (v : Int) := by
      rw [intOfBe, hbv]
      simp only [if_pos hlt]
    rw [decode_uint, decode_int, if_pos (beBytes_length n v), hint]
    have hvnn : ¬ ((v : Int) < 0) := by omega
    simp [hvnn]
    rfl
  · intro bs hlen hge hlt
    have hint : intOfBe n bs = (beVal bs : Int) - 2 ^ (8 * n) := by
      rw [intOfBe]
      simp only [if_neg (by omega : ¬ beVal bs < 2 ^ (8 * n - 1))]
    have hneg : intOfBe n bs < 0 := by
      rw [hint]
      have : (beVal bs : Int) < 2 ^ (8 * n) := by exact_mod_cast hlt
      omega
    rw [decode_uint, decode_int, if_pos hlen]
    simp [hneg]
    rfl

/-- C4 witness: the theorem applied at width 2 (u16) and `v = 37` (encodes and
round-trips) and at the wire value `0x8000` (sign bit set, decode fails). -/
theorem C4_uint_encode_decode_witness :
    decode_uint 2 (beBytes 2 37) = .ok 37 ∧
    decode_uint 2 [0x80, 0x00] = .error .InvalidPostgresUint :=
  ⟨((C4_uint_encode_decode 2 37 (by norm_num) (by norm_num)).2.1 (by norm_num)).2,
   (C4_uint_encode_decode 2 37 (by norm_num) (by norm_num)).2.2 [0x80, 0x00]
     (by decide) (by decide) (by decide)⟩

/-! ## Prepared-statement cache (`database/client/rdbms/statements.rs`)

Blocks are identified by an abstract payload (`Nat`); the
`HashMap<u64, usize>` of fingerprint → index is embedded as an association
list with insert-or-replace semantics. -/

/-- `HashMap::get`, on the association-list embedding. -/
def assocLookup (k : Nat) : List (Nat × Nat) → Option Nat
  | [] => none
  | (k2, v) :: rest => if k2 = k then some v else assocLookup k rest

/-- `HashMap::insert`, on the association-list embedding. -/
def assocInsert (k v : Nat) : List (Nat × Nat) → List (Nat × Nat)
  | [] => [(k, v)]
  | (k2, v2) :: rest =>
    if k2 = k then (k2, v) :: rest else (k2, v2) :: assocInsert k v rest

/-- The `stmts_indcs.retain(..)` call of `Statements::builder`: drop entries
whose index is below `to_remove` and shift the rest down by `to_remove`. -/
def retainRemap (to_remove : Nat) (l : List (Nat × Nat)) : List (Nat × Nat) :=
  l.filterMap fun kv =>
    if kv.2 < to_remove then none else some (kv.1, kv.2 - to_remove)

/-- The `Statements` cache state. The hasher and the generic parameters are
irrelevant to the claims and omitted. -/
structure Statements where
  max_stmts : Nat
  stmts : List Nat
  stmts_indcs : List (Nat × Nat)
  deriving DecidableEq, Repr

/-- `Statements::new`: the capacity is clamped with `max_stmts.max(1)`. -/
def Statements.new (max_stmts : Nat) : Statements :=
  ⟨max max_stmts 1, [], []⟩

/-- The eviction prelude of `Statements::builder`: when
`blocks_len ≥ max_stmts`, pop `max(max_stmts / 2, 1)` blocks off the front
(each handed to `stmt_cb`; returned here as the second component) and
remap the surviving indices. -/
def Statements.builderEvict (s : Statements) : Statements × List Nat :=
  if s.stmts.length ≥ s.max_stmts then
    let to_remove := max (s.max_stmts / 2) 1
    (⟨s.max_stmts, s.stmts.drop to_remove, retainRemap to_remove s.stmts_indcs⟩,
      s.stmts.take to_remove)
  else (s, [])

/-- Modelled from the spec: `StatementBuilder::build`
(`statement_builder.rs` is not among the provided sources) pushes one block
at the back of the deque and records `stmt_cmd_id → index` of that block. -/
def Statements.build (s : Statements) (stmt_cmd_id blk : Nat) : Statements :=
  ⟨s.max_stmts, s.stmts ++ [blk],
    assocInsert stmt_cmd_id s.stmts.length s.stmts_indcs⟩

/-- One completed statement preparation: `Statements::builder` followed by
`StatementBuilder::build`. Also returns the blocks evicted on the way. -/
def Statements.prepare (s : Statements) (stmt_cmd_id blk : Nat) :
    Statements × List Nat :=
  let (s2, ev) := s.builderEvict
  (s2.build stmt_cmd_id blk, ev)

/-- `Statements::get_by_idx`, reduced to the block payload. -/
def Statements.get_by_idx (s : Statements) (idx : Nat) : Option Nat :=
  s.stmts[idx]?

/-- `Statements::get_by_stmt_cmd_id`. -/
def Statements.get_by_stmt_cmd_id (s : Statements) (stmt_cmd_id : Nat) :
    Option Nat :=
  (assocLookup stmt_cmd_id s.stmts_indcs).bind s.get_by_idx

/-- `k` distinct preparations in sequence, fingerprints `fp 0, fp 1, …` and
block payloads `blk 0, blk 1, …`. -/
def prepSeq (s : Statements) (fp blk : Nat → Nat) : Nat → Statements
  | 0 => s
  | k + 1 => ((prepSeq s fp blk k).prepare (fp k) (blk k)).1

theorem assocLookup_append (k : Nat) (l1 l2 : List (Nat × Nat)) :
    assocLookup k (l1 ++ l2) =
      match assocLookup k l1 with
      | some v => some v
      | none => assocLookup k l2 := by
  induction l1 with
  | nil => simp [assocLookup]
  | cons hd tl ih =>
    obtain ⟨k2, v2⟩ := hd
    by_cases h : k2 = k
    · simp [assocLookup, h]
    · simp [assocLookup, h, ih]

theorem assocInsert_fresh (k v : Nat) (l : List (Nat × Nat))
    (h : ∀ kv ∈ l, kv.1 ≠ k) : assocInsert k v l = l ++ [(k, v)] := by
  induction l with
  | nil => rfl
  | cons hd tl ih =>
    obtain ⟨k2, v2⟩ := hd
    have hk2 : k2 ≠ k := h (k2, v2) (List.mem_cons_self _ _)
    simp only [assocInsert, if_neg hk2, List.cons_append, List.cons.injEq, true_and]
    exact ih fun kv hkv => h kv (List.mem_cons_of_mem _ hkv)

theorem assocLookup_map {fp : Nat → Nat} (hfp : Function.Injective fp)
    (g : Nat → Nat) (l : List Nat) (j : Nat) :
    assocLookup (fp j) (l.map fun i => (fp i, g i)) =
      if j ∈ l then some (g j) else none := by
  induction l with
  | nil => simp [assocLookup]
  | cons i tl ih =>
    by_cases hij : i = j
    · subst hij
      simp [assocLookup]
    · have hne : fp i ≠ fp j := fun h => hij (hfp h)
      have hji : ¬ (j = i) := fun h => hij h.symm
      simp [assocLookup, hne, ih, List.mem_cons, hji]

theorem assocLookup_filterMap {fp : Nat → Nat} (hfp : Function.Injective fp)
    (t : Nat) (l : List Nat) (j : Nat) :
    assocLookup (fp j)
        (l.filterMap fun i => if i < t then none else some (fp i, i - t)) =
      if j ∈ l ∧ t ≤ j then some (j - t) else none := by
  induction l with
  | nil => simp [assocLookup]
  | cons i tl ih =>
    rw [List.filterMap_cons]
    by_cases hit : i < t
    · simp only [if_pos hit]
      rw [ih]
      by_cases hcond : j ∈ tl ∧ t ≤ j
      · rw [if_pos hcond, if_pos ⟨List.mem_cons_of_mem _ hcond.1, hcond.2⟩]
      · rw [if_neg hcond, if_neg ?_]
        rintro ⟨hmem, htj⟩
        rcases List.mem_cons.1 hmem with h | h
        · omega
        · exact hcond ⟨h, htj⟩
    · simp only [if_neg hit]
      by_cases hij : i = j
      · subst hij
        rw [assocLookup, if_pos rfl, if_pos ⟨List.mem_cons_self _ _, by omega⟩]
      · have hne : fp i ≠ fp j := fun h => hij (hfp h)
        rw [assocLookup, if_neg hne, ih]
        by_cases hcond : j ∈ tl ∧ t ≤ j
        · rw [if_pos hcond, if_pos ⟨List.mem_cons_of_mem _ hcond.1, hcond.2⟩]
        · rw [if_neg hcond, if_neg ?_]
          rintro ⟨hmem, htj⟩
          rcases List.mem_cons.1 hmem with h | h
          · exact hij h.symm
          · exact hcond ⟨h, htj⟩

theorem retainRemap_range_map (fp : Nat → Nat) (t M : Nat) :
    retainRemap t ((List.range M).map fun i => (fp i, i)) =
      (List.range M).filterMap fun i =>
        if i < t then none else some (fp i, i - t) := by
  rw [retainRemap, List.filterMap_map]
  rfl

/-- After `k ≤ max m 1` distinct preparations from a fresh cache, no eviction
has happened: the deque holds blocks `blk 0 … blk (k-1)` in insertion order
and the map sends `fp i` to `i`. -/
theorem prepSeq_fill (m : Nat) (fp blk : Nat → Nat)
    (hfp : Function.Injective fp) (k : Nat) (hk : k ≤ max m 1) :
    prepSeq (Statements.new m) fp blk k =
      ⟨max m 1, (List.range k).map blk, (List.range k).map fun i => (fp i, i)⟩ := by
  induction k with
  | zero => simp [prepSeq, Statements.new]
  | succ k ih =>
    have hk' : k ≤ max m 1 := Nat.le_of_succ_le hk
    rw [prepSeq, ih hk']
    unfold Statements.prepare Statements.builderEvict Statements.build
    have hlt : ¬ (((List.range k).map blk).length ≥ max m 1) := by
      simp only [List.length_map, List.length_range]
      omega
    rw [if_neg hlt]
    simp only []
    have hfresh : assocInsert (fp k) (((List.range k).map blk).length)
        ((List.range k).map fun i => (fp i, i)) =
        ((List.range k).map fun i => (fp i, i)) ++ [(fp k, k)] := by
      rw [assocInsert_fresh]
      · simp only [List.length_map, List.length_range]
      · intro kv hkv
        obtain ⟨i, hi, hkv2⟩ := List.mem_map.1 hkv
        rw [← hkv2]
        intro hcontra
        have := hfp hcontra
        rw [List.mem_range] at hi
        omega
    rw [hfresh]
    congr 1
    · rw [List.range_succ, List.map_append]
      rfl
    · rw [List.range_succ, List.map_append]
      rfl

/-- The `(max m 1) + 1`-st preparation evicts `max((max m 1) / 2, 1)` blocks
from the front and re-maps the surviving indices. -/
theorem prepSeq_final (m : Nat) (fp blk : Nat → Nat)
    (hfp : Function.Injective fp) :
    prepSeq (Statements.new m) fp blk (max m 1 + 1) =
      ⟨max m 1,
        (((List.range (max m 1)).map blk).drop (max (max m 1 / 2) 1)) ++ [blk (max m 1)],
        ((List.range (max m 1)).filterMap fun i =>
          if i < max (max m 1 / 2) 1 then none
          else some (fp i, i - max (max m 1 / 2) 1)) ++
          [(fp (max m 1), max m 1 - max (max m 1 / 2) 1)]⟩ := by
  rw [prepSeq, prepSeq_fill m fp blk hfp (max m 1) (le_refl _)]
  unfold Statements.prepare Statements.builderEvict Statements.build
  have hge : ((List.range (max m 1)).map blk).length ≥ max m 1 := by
    simp
  rw [if_pos hge]
  simp only []
  rw [retainRemap_range_map]
  have hfresh : assocInsert (fp (max m 1))
      ((((List.range (max m 1)).map blk).drop (max (max m 1 / 2) 1)).length)
      ((List.range (max m 1)).filterMap fun i =>
        if i < max (max m 1 / 2) 1 then none
        else some (fp i, i - max (max m 1 / 2) 1)) =
      ((List.range (max m 1)).filterMap fun i =>
        if i < max (max m 1 / 2) 1 then none
        else some (fp i, i - max (max m 1 / 2) 1)) ++
        [(fp (max m 1), max m 1 - max (max m 1 / 2) 1)] := by
    rw [assocInsert_fresh]
    · simp only [List.length_drop, List.length_map, List.length_range]
    · intro kv hkv
      obtain ⟨i, hi, hkv2⟩ := List.mem_filterMap.1 hkv
      rw [List.mem_range] at hi
      by_cases hit : i < max (max m 1 / 2) 1
      · simp [hit] at hkv2
      · simp only [if_neg hit, Option.some.injEq] at hkv2
        rw [← hkv2]
        intro hcontra
        have := hfp hcontra
        omega
  rw [hfresh]

/-- C1 counterexample: the claim says that after `max_stmts + 1` distinct
preparations "exactly max_stmts/2 statements have been evicted". With
`max_stmts = 1` the code evicts `max(1/2, 1) = 1` statement (the callback
sees block `100`), not `1/2 = 0`: the second preparation leaves a single
cached block and the first fingerprint no longer resolves, which the claim's
"0 evicted" reading contradicts. -/
theorem C1_counterexample :
    (((Statements.new 1).prepare 10 100).1.prepare 20 200).2 = [100] ∧
    (1 : Nat) / 2 = 0 ∧
    ((((Statements.new 1).prepare 10 100).1.prepare 20 200).1).stmts = [200] ∧
    ((((Statements.new 1).prepare 10 100).1.prepare 20 200).1).get_by_stmt_cmd_id 10
      = none := by
  refine ⟨rfl, rfl, rfl, rfl⟩

/-- C1 (amended): for every capacity `m` (effective capacity `M = max m 1`)
and `M + 1` distinct preparations with fresh fingerprints, let
`t = max(M/2, 1)`. Then: the first-inserted fingerprint no longer resolves;
no preparation but the last evicts anything, and the last evicts exactly the
first `t` blocks in FIFO insertion order; every surviving fingerprint still
resolves to the statement it resolved to before the eviction, at index
shifted down by `t`; every evicted fingerprint resolves to nothing; and the
newly inserted fingerprint resolves to its block. (The claim's `max_stmts/2`
eviction count is amended to `max(max_stmts/2, 1)`.) -/
theorem C1_fifo_half_eviction (m : Nat) (fp blk : Nat → Nat)
    (hfp : Function.Injective fp) :
    (prepSeq (Statements.new m) fp blk (max m 1 + 1)).get_by_stmt_cmd_id (fp 0)
        = none ∧
    (∀ k, k ≤ max m 1 →
      ((prepSeq (Statements.new m) fp blk k).prepare (fp k) (blk k)).2 =
        if k = max m 1 then (List.range (max (max m 1 / 2) 1)).map blk else []) ∧
    (∀ i, max (max m 1 / 2) 1 ≤ i → i < max m 1 →
      (prepSeq (Statements.new m) fp blk (max m 1)).get_by_stmt_cmd_id (fp i)
          = some (blk i) ∧
      (prepSeq (Statements.new m) fp blk (max m 1 + 1)).get_by_stmt_cmd_id (fp i)
          = some (blk i) ∧
      assocLookup (fp i)
          (prepSeq (Statements.new m) fp blk (max m 1 + 1)).stmts_indcs
        = some (i - max (max m 1 / 2) 1)) ∧
    (∀ i, i < max (max m 1 / 2) 1 →
      (prepSeq (Statements.new m) fp blk (max m 1 + 1)).get_by_stmt_cmd_id (fp i)
        = none) ∧
    (prepSeq (Statements.new m) fp blk (max m 1 + 1)).get_by_stmt_cmd_id
        (fp (max m 1)) = some (blk (max m 1)) := by
  set M := max m 1 with hM
  set t := max (M / 2) 1 with ht
  have hM1 : 1 ≤ M := le_max_right m 1
  have htM : t ≤ M := by omega
  have ht1 : 1 ≤ t := le_max_right _ 1
  have hfin := prepSeq_final m fp blk hfp
  rw [← hM, ← ht] at hfin
  have hfill := prepSeq_fill m fp blk hfp M (le_refl M)
  rw [← hM] at hfill
  -- lookup in the final index map
  have hlook : ∀ j : Nat,
      assocLookup (fp j) (prepSeq (Statements.new m) fp blk (M + 1)).stmts_indcs =
        if j = M then some (M - t)
        else if j < M ∧ t ≤ j then some (j - t) else none := by
    intro j
    rw [hfin]
    simp only []
    rw [assocLookup_append, assocLookup_filterMap hfp]
    by_cases hjM : j = M
    · subst hjM
      rw [if_neg (by simp), if_pos rfl]
      simp [assocLookup]
    · rw [if_neg hjM]
      by_cases hcond : j ∈ List.range M ∧ t ≤ j
      · rw [if_pos hcond, if_pos ⟨List.mem_range.1 hcond.1, hcond.2⟩]
      · rw [if_neg hcond, if_neg (by
          rintro ⟨h1, h2⟩
          exact hcond ⟨List.mem_range.2 h1, h2⟩)]
        simp only [assocLookup]
        rw [if_neg fun h => hjM (hfp h).symm]
  -- block stored at a surviving index
  have hblocks : ∀ i, t ≤ i → i < M →
      (prepSeq (Statements.new m) fp blk (M + 1)).stmts[i - t]? = some (blk i) := by
    intro i hti hiM
    rw [hfin]
    simp only []
    rw [List.getElem?_append, if_pos (by simp; omega), List.getElem?_drop,
      List.getElem?_map]
    have : t + (i - t) = i := by omega
    rw [this]
    simp [List.getElem?_range hiM]
  refine ⟨?_, ?_, ?_, ?_, ?_⟩
  · rw [Statements.get_by_stmt_cmd_id, hlook 0]
    have h1 : (0 : Nat) ≠ M := by omega
    have h2 : ¬ ((0 : Nat) < M ∧ t ≤ 0) := by omega
    rw [if_neg h1, if_neg h2]
    rfl
  · intro k hk
    by_cases hkM : k = M
    · subst hkM
      rw [hfill]
      unfold Statements.prepare Statements.builderEvict
      rw [if_pos (by simp)]
      simp only [eq_self_iff_true, if_true]
      rw [← List.map_take, List.take_range]
      congr 2
      omega
    · have hkM' : k < M := by omega
      rw [prepSeq_fill m fp blk hfp k (by omega)]
      unfold Statements.prepare Statements.builderEvict
      rw [if_neg (by simp; omega)]
      simp [hkM]
  · intro i hti hiM
    refine ⟨?_, ?_, ?_⟩
    · rw [Statements.get_by_stmt_cmd_id, hfill]
      simp only []
      rw [assocLookup_map hfp]
      rw [if_pos (List.mem_range.2 hiM)]
      simp [Statements.get_by_idx, List.getElem?_map, List.getElem?_range hiM]
    · rw [Statements.get_by_stmt_cmd_id, hlook i,
        if_neg (by omega), if_pos ⟨hiM, hti⟩]
      exact hblocks i hti hiM
    · rw [hlook i, if_neg (by omega), if_pos ⟨hiM, hti⟩]
  · intro i hit
    rw [Statements.get_by_stmt_cmd_id, hlook i, if_neg (by omega),
      if_neg (by omega)]
    rfl
  · rw [Statements.get_by_stmt_cmd_id, hlook M, if_pos rfl, hfin]
    simp only [Statements.get_by_idx, Option.some_bind]
    rw [List.getElem?_append, if_neg (by simp)]
    simp

/-- C1 witness: the amended theorem applied at `m = 4` with fingerprints
`fp i = i + 50` and blocks `blk i = i`: after 5 preparations the first two
blocks (t = 2) were evicted in order and fingerprint 53 still resolves. -/
theorem C1_fifo_half_eviction_witness :
    (prepSeq (Statements.new 4) (fun i => i + 50) (fun i => i) 5).get_by_stmt_cmd_id 50
        = none ∧
    ((prepSeq (Statements.new 4) (fun i => i + 50) (fun i => i) 4).prepare 54 4).2
        = [0, 1] ∧
    (prepSeq (Statements.new 4) (fun i => i + 50) (fun i => i) 5).get_by_stmt_cmd_id 53
        = some 3 := by
  have h := C1_fifo_half_eviction 4 (fun i => i + 50) (fun i => i)
    (fun x y hxy => by simpa using hxy)
  refine ⟨h.1, ?_, (h.2.2.1 3 (by decide) (by decide)).2.1⟩
  have h2 := h.2.1 4 (by decide)
  rw [if_pos (by decide)] at h2
  exact h2

/-- C10: constructing a `Statements` cache clamps the capacity to at least 1
(`max_stmts.max(1)`); after every sequence of completed preparations the
number of cached blocks never exceeds that effective capacity; and whenever
the cache is full the builder first evicts the first `max(max_stmts/2, 1)`
front entries before inserting. -/
theorem C10_capacity_clamp_and_bound (m : Nat) (ops : List (Nat × Nat)) :
    (Statements.new m).max_stmts = max m 1 ∧
    1 ≤ (Statements.new m).max_stmts ∧
    (ops.foldl (fun s op => (s.prepare op.1 op.2).1) (Statements.new m)).stmts.length
      ≤ max m 1 ∧
    (∀ s : Statements, s.stmts.length ≥ s.max_stmts →
      s.builderEvict.2 = s.stmts.take (max (s.max_stmts / 2) 1)) := by
  have hstep : ∀ (s : Statements) (k b : Nat),
      1 ≤ s.max_stmts → s.stmts.length ≤ s.max_stmts →
      (s.prepare k b).1.max_stmts = s.max_stmts ∧
      (s.prepare k b).1.stmts.length ≤ s.max_stmts := by
    intro s k b h1 h2
    unfold Statements.prepare Statements.builderEvict Statements.build
    by_cases hfull : s.stmts.length ≥ s.max_stmts
    · rw [if_pos hfull]
      constructor
      · rfl
      · simp only [List.length_append, List.length_drop, List.length_cons,
          List.length_nil]
        have : 1 ≤ max (s.max_stmts / 2) 1 := le_max_right _ 1
        omega
    · rw [if_neg hfull]
      constructor
      · rfl
      · simp only [List.length_append, List.length_cons, List.length_nil]
        omega
  have hfold : ∀ (l : List (Nat × Nat)) (s : Statements),
      1 ≤ s.max_stmts → s.stmts.length ≤ s.max_stmts →
      (l.foldl (fun s op => (s.prepare op.1 op.2).1) s).max_stmts = s.max_stmts ∧
      (l.foldl (fun s op => (s.prepare op.1 op.2).1) s).stmts.length ≤ s.max_stmts := by
    intro l
    induction l with
    | nil => intro s h1 h2; exact ⟨rfl, h2⟩
    | cons hd tl ih =>
      intro s h1 h2
      have hs := hstep s hd.1 hd.2 h1 h2
      have := ih ((s.prepare hd.1 hd.2).1) (by omega) (by omega)
      rw [List.foldl_cons]
      omega
  refine ⟨rfl, le_max_right m 1, ?_, ?_⟩
  · have := hfold ops (Statements.new m) (le_max_right m 1) (by simp [Statements.new])
    have hmax : (Statements.new m).max_stmts = max m 1 := rfl
    omega
  · intro s hfull
    unfold Statements.builderEvict
    rw [if_pos hfull]

/-! ## HTTP/2 client-framework `recv`
(`client_api_framework/network/transport/wtx_http.rs`) -/

/-- The part of `PkgsAux` that `recv` touches: the byte buffer. -/
structure PkgsAux where
  byte_buffer : List Nat
  deriving DecidableEq, Repr

/-- The pooled HTTP/2 connection as `recv` could observe it: the bytes its
read loop could consume. `recv` never touches it. -/
structure ClientFrameworkConn where
  incoming : List Nat
  deriving DecidableEq, Repr

/-- `RecievingTransport::recv for ClientFramework`: the body is
`Ok(0..pkgs_aux.byte_buffer.len())` — no read-loop driving, no buffer
mutation. The embedding threads the connection state explicitly so that
"performs no I/O" is the statement that it comes back unchanged. -/
def clientFrameworkRecv (pa : PkgsAux) (conn : ClientFrameworkConn) :
    Except Err ((Nat × Nat) × PkgsAux × ClientFrameworkConn) :=
  .ok ((0, pa.byte_buffer.length), pa, conn)

/-- C8: for every call, the HTTP/2 client-framework `recv` succeeds with the
full byte-buffer range `0..byte_buffer.len()`, leaves the buffer unchanged
and consumes nothing from the connection (no I/O). -/
theorem C8_recv_returns_full_range_no_io (pa : PkgsAux)
    (conn : ClientFrameworkConn) :
    ∃ r, clientFrameworkRecv pa conn = .ok (r, pa, conn) ∧
      r.1 = 0 ∧ r.2 = pa.byte_buffer.length :=
  ⟨(0, pa.byte_buffer.length), rfl, rfl, rfl⟩

/-! ## Postgres simple query
(`database/client/postgres/executor/simple_query.rs`) -/

/-- Backend message payloads as the simple-query loop distinguishes them
(`MessageTy`, absent from src/; modelled from the spec). -/
inductive MessageTy where
  | CommandComplete (rows : Nat)
  | EmptyQueryResponse
  | ReadyForQuery
  | DataRow
  | RowDescription
  | ParseComplete
  deriving DecidableEq, Repr

/-- One backend wire item as delivered by `fetch_msg_from_stream`: either a
regular message with its tag byte, or an `ErrorResponse` carrying a parsed
`DbError` (abstracted to an identifier). -/
inductive BackendItem where
  | msg (tag : Nat) (ty : MessageTy)
  | errorResponse (db : Nat)
  deriving DecidableEq, Repr

/-- Modelled from the spec: after an `ErrorResponse`, messages are drained up
to and including `ReadyForQuery` before the error is returned
(`fetch_msg_from_stream` lives in the executor module, absent from src/). -/
def drainToReadyForQuery : List BackendItem → List BackendItem
  | [] => []
  | .msg _ .ReadyForQuery :: rest => rest
  | _ :: rest => drainToReadyForQuery rest

/-- Modelled from the spec: the `Query` frontend message written by
`query(cmd, fbw)`: tag `Q`, 32-bit big-endian length (self-inclusive), the
command bytes, and a terminating NUL. -/
def queryMessage (cmd : List Nat) : List Nat :=
  81 :: beBytes 4 (4 + cmd.length + 1) ++ cmd ++ [0]

/-- The receive loop of `simple_query_execute`: the `FnMut(u64)` callback is
embedded as the list of values it gets invoked with. Fetching is modelled on
the list of incoming backend items; an `ErrorResponse` drains to
`ReadyForQuery` and surfaces as the error, other behaviour follows the
`match msg.ty` of the source. The unread remainder of the stream is returned
alongside. -/
def simple_query_loop : List BackendItem →
    Except (Err × List BackendItem) (List Nat × List BackendItem)
  | [] => .error (.UnexpectedStreamReadEOF, [])
  | .errorResponse db :: rest =>
      .error (.PostgresDbError db, drainToReadyForQuery rest)
  | .msg tag ty :: rest =>
    match ty with
    | .CommandComplete n =>
        match simple_query_loop rest with
        | .ok (ns, rem) => .ok (n :: ns, rem)
        | .error e => .error e
    | .EmptyQueryResponse =>
        match simple_query_loop rest with
        | .ok (ns, rem) => .ok (0 :: ns, rem)
        | .error e => .error e
    | .ReadyForQuery => .ok ([], rest)
    | _ => .error (.UnexpectedDatabaseMessage tag, rest)

/-- `Executor::simple_query_execute`: write `Query(cmd)`, then run the
receive loop. The first component is what reaches the stream writer. -/
def simple_query_execute (cmd : List Nat) (incoming : List BackendItem) :
    List Nat × Except (Err × List BackendItem) (List Nat × List BackendItem) :=
  (queryMessage cmd, simple_query_loop incoming)

/-- An item the loop dispatches to the callback: `CommandComplete` or
`EmptyQueryResponse`. -/
def isCountItem : BackendItem → Bool
  | .msg _ (.CommandComplete _) => true
  | .msg _ .EmptyQueryResponse => true
  | _ => false

/-- The callback invocations a prefix of count items produces:
the parsed affected-row count for `CommandComplete`, 0 for
`EmptyQueryResponse`. -/
def countsOf (l : List BackendItem) : List Nat :=
  l.filterMap fun item =>
    match item with
    | .msg _ (.CommandComplete n) => some n
    | .msg _ .EmptyQueryResponse => some 0
    | _ => none

/-- C7: `simple_query_execute` writes `Query(cmd)` and reads messages until
`ReadyForQuery`: every `CommandComplete` invokes the callback with the parsed
affected-row count and every `EmptyQueryResponse` invokes it with 0 (in
order); `ReadyForQuery` terminates with success; and an `ErrorResponse`
yields the parsed `DbError`, returned after draining messages up to
`ReadyForQuery`. -/
theorem C7_simple_query_dispatch (cmd : List Nat) (pre junk : List BackendItem)
    (tagR db : Nat) (hpre : ∀ item ∈ pre, isCountItem item = true) :
    simple_query_execute cmd (pre ++ .msg tagR .ReadyForQuery :: junk) =
      (queryMessage cmd, .ok (countsOf pre, junk)) ∧
    simple_query_execute cmd (pre ++ .errorResponse db :: junk) =
      (queryMessage cmd,
        .error (.PostgresDbError db, drainToReadyForQuery junk)) := by
  unfold simple_query_execute
  refine ⟨?_, ?_⟩ <;> (congr 1)
  · induction pre with
    | nil => simp [simple_query_loop, countsOf]
    | cons hd tl ih =>
      have hhd := hpre hd (List.mem_cons_self _ _)
      have htl : ∀ item ∈ tl, isCountItem item = true :=
        fun item hitem => hpre item (List.mem_cons_of_mem _ hitem)
      match hd, hhd with
      | .msg tag (.CommandComplete n), _ =>
        rw [List.cons_append, simple_query_loop, ih htl]
        simp [countsOf]
      | .msg tag .EmptyQueryResponse, _ =>
        rw [List.cons_append, simple_query_loop, ih htl]
        simp [countsOf]
  · induction pre with
    | nil => simp [simple_query_loop]
    | cons hd tl ih =>
      have hhd := hpre hd (List.mem_cons_self _ _)
      have htl : ∀ item ∈ tl, isCountItem item = true :=
        fun item hitem => hpre item (List.mem_cons_of_mem _ hitem)
      match hd, hhd with
      | .msg tag (.CommandComplete n), _ =>
        rw [List.cons_append, simple_query_loop, ih htl]
      | .msg tag .EmptyQueryResponse, _ =>
        rw [List.cons_append, simple_query_loop, ih htl]

/-- C7 witness: two `CommandComplete`/`EmptyQueryResponse` messages followed
by `ReadyForQuery` invoke the callback with `[3, 0]`; with an `ErrorResponse`
instead, the parsed error surfaces after draining to `ReadyForQuery`. -/
theorem C7_simple_query_dispatch_witness :
    simple_query_execute [65] [.msg 67 (.CommandComplete 3),
        .msg 73 .EmptyQueryResponse, .msg 90 .ReadyForQuery] =
      (queryMessage [65], .ok ([3, 0], [])) ∧
    simple_query_execute [65] [.msg 67 (.CommandComplete 3),
        .errorResponse 7, .msg 68 .DataRow, .msg 90 .ReadyForQuery,
        .msg 67 (.CommandComplete 9)] =
      (queryMessage [65],
        .error (.PostgresDbError 7, [.msg 67 (.CommandComplete 9)])) := by
  have h1 := (C7_simple_query_dispatch [65] [.msg 67 (.CommandComplete 3),
    .msg 73 .EmptyQueryResponse] [] 90 0 (by decide)).1
  have h2 := (C7_simple_query_dispatch [65] [.msg 67 (.CommandComplete 3)]
    [.msg 68 .DataRow, .msg 90 .ReadyForQuery, .msg 67 (.CommandComplete 9)]
    0 7 (by decide)).2
  exact ⟨by simpa [countsOf] using h1,
    by simpa [drainToReadyForQuery] using h2⟩

/-! ## Postgres `DbError` parsing (`database/client/postgres/db_error.rs`)

The `&str` input is embedded as a byte list; byte positions stand for the
source's char-boundary positions, which coincide on the ASCII wire data
this parser receives. The embedding assumes inputs shorter than `u32::MAX`,
so the source's saturating-index fallback paths are never taken. -/

/-- Modelled from the spec: `SqlState::try_from(&str)` parses the
5-character SQLSTATE (the `SqlState` enum is absent from src/). -/
def sqlStateTryFrom (data : List Nat) : Except Err (List Nat) :=
  if data.length = 5 then .ok data else .error .InvalidSqlStateBytes

/-- The severity of a Postgres error or notice (`Severity`). -/
inductive Severity where
  | Debug | Error | Fatal | Info | Log | Notice | Panic | Warning
  deriving DecidableEq, Repr

/-- `Severity::try_from(&str)` over the eight nonlocalized strings given by
`_create_enum` in the source (byte lists are the ASCII spellings). -/
def severityTryFrom (data : List Nat) : Except Err Severity :=
  if data = [68, 69, 66, 85, 71] then .ok .Debug
  else if data = [69, 82, 82, 79, 82] then .ok .Error
  else if data = [70, 65, 84, 65, 76] then .ok .Fatal
  else if data = [73, 78, 70, 79] then .ok .Info
  else if data = [76, 79, 71] then .ok .Log
  else if data = [78, 79, 84, 73, 67, 69] then .ok .Notice
  else if data = [80, 65, 78, 73, 67] then .ok .Panic
  else if data = [87, 65, 82, 78, 73, 78, 71] then .ok .Warning
  else .error .InvalidSeverityBytes

/-- Modelled from the spec: `u32::from_radix_10` parses a decimal ASCII
integer, rejecting empty/non-digit input and u32 overflow
(`FromRadix10` is absent from src/). -/
def from_radix_10_u32 (data : List Nat) : Except Err Nat :=
  if data = [] then .error .AtoiInvalidBytes
  else if data.all (fun b => 48 ≤ b && b ≤ 57) then
    let v := data.foldl (fun acc b => acc * 10 + (b - 48)) 0
    if v < 4294967296 then .ok v else .error .AtoiInvalidBytes
  else .error .AtoiInvalidBytes

/-- `ErrorPosition`. -/
inductive ErrorPosition where
  | Internal (position : Nat) (query : Nat × Nat)
  | Original (position : Nat)
  deriving DecidableEq, Repr

/-- The mutable locals of `TryFrom<&str> for DbError` before assembly. -/
structure DbFieldsAcc where
  code : Option (List Nat) := none
  column : Option (Nat × Nat) := none
  constraint : Option (Nat × Nat) := none
  datatype : Option (Nat × Nat) := none
  detail : Option (Nat × Nat) := none
  file : Option (Nat × Nat) := none
  hint : Option (Nat × Nat) := none
  internal_position : Option Nat := none
  internal_query : Option (Nat × Nat) := none
  line : Option Nat := none
  message : Option (Nat × Nat) := none
  normal_position : Option Nat := none
  routine : Option (Nat × Nat) := none
  schema : Option (Nat × Nat) := none
  severity_localized : Option (Nat × Nat) := none
  severity_nonlocalized : Option Severity := none
  table : Option (Nat × Nat) := none
  whereField : Option (Nat × Nat) := none
  deriving DecidableEq, Repr

/-- The `match ty` dispatch of one `{tag, value}` pair: `data` is the value,
`idx1` the byte position right after the tag. Unrecognised tags reach the
wildcard arm, which surfaces `UnexpectedUint(from_radix_10(ty))`. -/
def applyTagE (ty : Nat) (data : List Nat) (idx1 : Nat) (acc : DbFieldsAcc) :
    Except Err DbFieldsAcc :=
  let range := (idx1, idx1 + data.length)
  match ty with
  | 67 =>
    match sqlStateTryFrom data with
    | .ok c => .ok { acc with code := some c }
    | .error e => .error e
  | 68 => .ok { acc with detail := some range }
  | 72 => .ok { acc with hint := some range }
  | 76 =>
    match from_radix_10_u32 data with
    | .ok v => .ok { acc with line := some v }
    | .error e => .error e
  | 77 => .ok { acc with message := some range }
  | 80 =>
    match from_radix_10_u32 data with
    | .ok v => .ok { acc with normal_position := some v }
    | .error e => .error e
  | 82 => .ok { acc with routine := some range }
  | 83 => .ok { acc with severity_localized := some range }
  | 86 =>
    match severityTryFrom data with
    | .ok s => .ok { acc with severity_nonlocalized := some s }
    | .error e => .error e
  | 87 => .ok { acc with whereField := some range }
  | 99 => .ok { acc with column := some range }
  | 100 => .ok { acc with datatype := some range }
  | 70 => .ok { acc with file := some range }
  | 110 => .ok { acc with constraint := some range }
  | 112 =>
    match from_radix_10_u32 data with
    | .ok v => .ok { acc with internal_position := some v }
    | .error e => .error e
  | 113 => .ok { acc with internal_query := some range }
  | 115 => .ok { acc with schema := some range }
  | 116 => .ok { acc with table := some range }
  | _ =>
    match from_radix_10_u32 [ty] with
    | .ok v => .error (.UnexpectedUint v)
    | .error e => .error e

/-- The field-collection loop of `TryFrom<&str> for DbError`. The unconsumed
suffix `rem` replaces the source's `from.get(idx..)` view (`idx` is carried
so ranges are absolute); a lone trailing NUL breaks with success, a NUL
followed by more data is `UnexpectedString`, and running out of input breaks
with success, as in the source. Returns the final locals and index. -/
def dbErrorLoop : List Nat → Nat → DbFieldsAcc → Except Err (DbFieldsAcc × Nat)
  | [], idx, acc => .ok (acc, idx)
  | ty :: rest, idx, acc =>
    if ty = 0 then
      if rest.length = 0 then .ok (acc, idx + 1)
      else .error (.UnexpectedString rest.length)
    else
      let data := rest.takeWhile (· != 0)
      match applyTagE ty data (idx + 1) acc with
      | .error e => .error e
      | .ok acc2 =>
        dbErrorLoop ((rest.drop data.length).drop 1) (idx + 1 + data.length + 1) acc2
  termination_by rem _ _ => rem.length
  decreasing_by
    simp only [List.length_drop, List.length_cons]
    omega

/-- A Postgres error (`DbError`), fields as typed offsets into `buffer`. -/
structure DbError where
  buffer : List Nat
  code : List Nat
  column : Option (Nat × Nat)
  constraint : Option (Nat × Nat)
  datatype : Option (Nat × Nat)
  detail : Option (Nat × Nat)
  file : Option (Nat × Nat)
  hint : Option (Nat × Nat)
  line : Option Nat
  message : Nat × Nat
  position : Option ErrorPosition
  routine : Option (Nat × Nat)
  scheme : Option (Nat × Nat)
  severity_localized : Nat × Nat
  severity_nonlocalized : Option Severity
  table : Option (Nat × Nat)
  whereField : Option (Nat × Nat)
  deriving DecidableEq, Repr

/-- `crate::misc::into_rslt`. -/
def into_rslt {α : Type} : Option α → Except Err α
  | some a => .ok a
  | none => .error .NoInnerValue

/-- `TryFrom<&str> for DbError`: run the loop from index 0, then assemble,
requiring `code`, `message` and `severity_localized`, and combining the
position fields exactly as the source does. -/
def dbErrorTryFrom (from_ : List Nat) : Except Err DbError :=
  match dbErrorLoop from_ 0 {} with
  | .error e => .error e
  | .ok (acc, idx) => do
    let code ← into_rslt acc.code
    let message ← into_rslt acc.message
    let severity_localized ← into_rslt acc.severity_localized
    let position ←
      match acc.normal_position with
      | none =>
        match acc.internal_position with
        | some position => do
          let query ← into_rslt acc.internal_query
          pure (some (ErrorPosition.Internal position query))
        | none => pure none
      | some position => pure (some (ErrorPosition.Original position))
    return { buffer := if idx ≤ from_.length then from_.take idx else []
             code, column := acc.column, constraint := acc.constraint
             datatype := acc.datatype, detail := acc.detail, file := acc.file
             hint := acc.hint, line := acc.line, message, position
             routine := acc.routine, scheme := acc.schema
             severity_localized
             severity_nonlocalized := acc.severity_nonlocalized
             table := acc.table, whereField := acc.whereField }

/-- Wire encoding of one `{tag, value-cstring}` pair. -/
def encodePair (p : Nat × List Nat) : List Nat :=
  p.1 :: p.2 ++ [0]

/-- Wire encoding of a sequence of pairs. -/
def encodePairs (ps : List (Nat × List Nat)) : List Nat :=
  ps.foldr (fun p acc => encodePair p ++ acc) []

/-- The tag bytes the `match ty` of the source recognises. -/
def recognizedTags : List Nat :=
  [67, 68, 72, 76, 77, 80, 82, 83, 86, 87, 99, 100, 70, 110, 112, 113, 115, 116]

/-- `Except.isOk`. -/
def isOkE {ε α : Type} : Except ε α → Bool
  | .ok _ => true
  | .error _ => false

/-- A value acceptable for its tag: zero-free, and parseable where the tag
parses it (`C` as SQLSTATE, `L`/`P`/`p` as u32, `V` as a severity). -/
def validValue (t : Nat) (v : List Nat) : Bool :=
  v.all (· != 0) &&
  (if t = 67 then isOkE (sqlStateTryFrom v)
   else if t = 76 || t = 80 || t = 112 then isOkE (from_radix_10_u32 v)
   else if t = 86 then isOkE (severityTryFrom v)
   else true)

/-- A pair the parser consumes without error. -/
def ValidPair (p : Nat × List Nat) : Bool :=
  recognizedTags.contains p.1 && validValue p.1 p.2

/-- What the loop does to its locals over a list of pairs, with the running
index threaded. -/
def applyPairsE (idx : Nat) (ps : List (Nat × List Nat)) (acc : DbFieldsAcc) :
    Except Err (DbFieldsAcc × Nat) :=
  match ps with
  | [] => .ok (acc, idx)
  | (t, v) :: rest =>
    match applyTagE t v (idx + 1) acc with
    | .error e => .error e
    | .ok acc2 => applyPairsE (idx + 1 + v.length + 1) rest acc2

theorem takeWhile_ne_append (v rest : List Nat) (hv : v.all (· != 0) = true) :
    (v ++ 0 :: rest).takeWhile (· != 0) = v := by
  induction v with
  | nil => simp
  | cons b tl ih =>
    simp only [List.all_cons, Bool.and_eq_true] at hv
    simp [List.takeWhile_cons, hv.1, ih hv.2]

theorem dbErrorLoop_cons (t : Nat) (v rest : List Nat) (idx : Nat)
    (acc : DbFieldsAcc) (ht : t ≠ 0) (hv : v.all (· != 0) = true) :
    dbErrorLoop (t :: (v ++ 0 :: rest)) idx acc =
      match applyTagE t v (idx + 1) acc with
      | .error e => .error e
      | .ok acc2 => dbErrorLoop rest (idx + 1 + v.length + 1) acc2 := by
  rw [dbErrorLoop]
  rw [if_neg ht, takeWhile_ne_append v rest hv]
  have hdrop : ((v ++ 0 :: rest).drop v.length).drop 1 = rest := by
    rw [List.drop_left]
    rfl
  simp only [hdrop]

theorem contains_recognized_ne_zero {t : Nat}
    (h : recognizedTags.contains t = true) : t ≠ 0 := by
  intro h0
  subst h0
  simp [recognizedTags] at h

theorem applyTagE_ok {t : Nat} {v : List Nat} (i : Nat) (acc : DbFieldsAcc)
    (hp : ValidPair (t, v) = true) :
    ∃ acc2, applyTagE t v i acc = .ok acc2 := by
  rw [ValidPair, Bool.and_eq_true] at hp
  obtain ⟨hc, hval⟩ := hp
  rw [validValue, Bool.and_eq_true] at hval
  obtain ⟨-, hval⟩ := hval
  have hmem : t ∈ recognizedTags := by simpa using hc
  simp only [recognizedTags, List.mem_cons, List.not_mem_nil, or_false] at hmem
  rcases hmem with h | h | h | h | h | h | h | h | h | h | h | h | h | h | h | h | h | h <;>
    subst h <;>
    simp only [applyTagE] <;>
    norm_num [isOkE] at hval ⊢
  · cases hE : sqlStateTryFrom v with
    | ok c => exact ⟨_, rfl⟩
    | error e => rw [hE] at hval; simp at hval
  · cases hE : from_radix_10_u32 v with
    | ok n => exact ⟨_, rfl⟩
    | error e => rw [hE] at hval; simp at hval
  · cases hE : from_radix_10_u32 v with
    | ok n => exact ⟨_, rfl⟩
    | error e => rw [hE] at hval; simp at hval
  · cases hE : severityTryFrom v with
    | ok s => exact ⟨_, rfl⟩
    | error e => rw [hE] at hval; simp at hval
  · cases hE : from_radix_10_u32 v with
    | ok n => exact ⟨_, rfl⟩
    | error e => rw [hE] at hval; simp at hval

theorem dbErrorLoop_valid (ps : List (Nat × List Nat)) (idx : Nat)
    (acc : DbFieldsAcc) (hps : ∀ p ∈ ps, ValidPair p = true) :
    ∃ acc2, applyPairsE idx ps acc = .ok (acc2, idx + (encodePairs ps).length) ∧
      dbErrorLoop (encodePairs ps ++ [0]) idx acc =
        .ok (acc2, idx + (encodePairs ps).length + 1) := by
  induction ps generalizing idx acc with
  | nil =>
    refine ⟨acc, by simp [applyPairsE, encodePairs], ?_⟩
    rw [show encodePairs [] ++ [0] = [0] from rfl, dbErrorLoop]
    simp [encodePairs]
  | cons p tl ih =>
    obtain ⟨t, v⟩ := p
    have hp := hps (t, v) (List.mem_cons_self _ _)
    have htl : ∀ q ∈ tl, ValidPair q = true :=
      fun q hq => hps q (List.mem_cons_of_mem _ hq)
    have ht : t ≠ 0 :=
      contains_recognized_ne_zero (Bool.and_eq_true .. ▸ hp).1
    have hv : v.all (· != 0) = true := by
      have := (Bool.and_eq_true .. ▸ hp).2
      exact (Bool.and_eq_true .. ▸ this).1
    obtain ⟨acc2, hacc2⟩ := applyTagE_ok (idx + 1) acc hp
    obtain ⟨acc3, hA, hL⟩ := ih (idx + 1 + v.length + 1) acc2 htl
    have henc : encodePairs ((t, v) :: tl) ++ [0] =
        t :: (v ++ 0 :: (encodePairs tl ++ [0])) := by
      simp [encodePairs, encodePair]
    have hlen : (encodePairs ((t, v) :: tl)).length =
        v.length + 2 + (encodePairs tl).length := by
      simp [encodePairs, encodePair]
      omega
    refine ⟨acc3, ?_, ?_⟩
    · rw [applyPairsE, hacc2]
      show applyPairsE (idx + 1 + v.length + 1) tl acc2 = _
      rw [hA, hlen]
      simp only [Except.ok.injEq, Prod.mk.injEq]
      exact ⟨trivial, by omega⟩
    · rw [henc, dbErrorLoop_cons t v _ idx acc ht hv, hacc2]
      show dbErrorLoop (encodePairs tl ++ [0]) (idx + 1 + v.length + 1) acc2 = _
      rw [hL, hlen]
      simp only [Except.ok.injEq, Prod.mk.injEq]
      exact ⟨trivial, by omega⟩

theorem applyTagE_unrecognised (t : Nat) (data : List Nat) (i : Nat)
    (acc : DbFieldsAcc) (hc : recognizedTags.contains t = false) :
    applyTagE t data i acc =
      .error (match from_radix_10_u32 [t] with
              | .ok v => .UnexpectedUint v
              | .error e => e) := by
  have h : t ∉ recognizedTags := by simpa using hc
  unfold applyTagE
  split
  all_goals first
    | (cases hE : from_radix_10_u32 [t] <;> simp [hE])
    | simp [recognizedTags] at h

theorem dbErrorLoop_pairs_prefix (ps : List (Nat × List Nat)) (rest : List Nat)
    (idx : Nat) (acc : DbFieldsAcc) (hps : ∀ p ∈ ps, ValidPair p = true) :
    ∃ acc2, dbErrorLoop (encodePairs ps ++ rest) idx acc =
      dbErrorLoop rest (idx + (encodePairs ps).length) acc2 := by
  induction ps generalizing idx acc with
  | nil => exact ⟨acc, by simp [encodePairs]⟩
  | cons p tl ih =>
    obtain ⟨t, v⟩ := p
    have hp := hps (t, v) (List.mem_cons_self _ _)
    have htl : ∀ q ∈ tl, ValidPair q = true :=
      fun q hq => hps q (List.mem_cons_of_mem _ hq)
    have ht : t ≠ 0 :=
      contains_recognized_ne_zero (Bool.and_eq_true .. ▸ hp).1
    have hv : v.all (· != 0) = true := by
      have := (Bool.and_eq_true .. ▸ hp).2
      exact (Bool.and_eq_true .. ▸ this).1
    obtain ⟨acc2, hacc2⟩ := applyTagE_ok (idx + 1) acc hp
    obtain ⟨acc3, hL⟩ := ih (idx + 1 + v.length + 1) acc2 htl
    have henc : encodePairs ((t, v) :: tl) ++ rest =
        t :: (v ++ 0 :: (encodePairs tl ++ rest)) := by
      simp [encodePairs, encodePair]
    have hlen : (encodePairs ((t, v) :: tl)).length =
        v.length + 2 + (encodePairs tl).length := by
      simp [encodePairs, encodePair]
      omega
    refine ⟨acc3, ?_⟩
    rw [henc, dbErrorLoop_cons t v _ idx acc ht hv, hacc2]
    show dbErrorLoop (encodePairs tl ++ rest) (idx + 1 + v.length + 1) acc2 = _
    rw [hL, hlen]
    congr 1
    omega

/-- C9: parsing an ErrorResponse body consumes `{tag, value-cstring}` pairs
until a terminating zero byte — over any list of recognised, well-formed
pairs the collection loop consumes exactly the encoded pairs and stops just
past the terminator — and any unrecognised tag byte reached by the parser
makes `TryFrom<&str> for DbError` return an error (the `UnexpectedUint` of
the tag when the tag is a decimal digit, the digit-parse failure otherwise;
no lenient mode exists in the source). -/
theorem C9_db_error_pairs_and_unknown_tag (ps : List (Nat × List Nat))
    (hps : ∀ p ∈ ps, ValidPair p = true) :
    (∃ acc, dbErrorLoop (encodePairs ps ++ [0]) 0 {} =
        .ok (acc, (encodePairs ps).length + 1)) ∧
    (∀ t suffix, recognizedTags.contains t = false → t ≠ 0 →
      dbErrorTryFrom (encodePairs ps ++ t :: suffix) =
        .error (match from_radix_10_u32 [t] with
                | .ok v => .UnexpectedUint v
                | .error e => e)) := by
  constructor
  · obtain ⟨acc2, -, hL⟩ := dbErrorLoop_valid ps 0 {} hps
    exact ⟨acc2, by simpa using hL⟩
  · intro t suffix hct ht0
    obtain ⟨acc2, hL⟩ := dbErrorLoop_pairs_prefix ps (t :: suffix) 0 {} hps
    have hstep : dbErrorLoop (t :: suffix) (0 + (encodePairs ps).length) acc2 =
        .error (match from_radix_10_u32 [t] with
                | .ok v => .UnexpectedUint v
                | .error e => e) := by
      rw [dbErrorLoop, if_neg ht0]
      simp only [applyTagE_unrecognised t _ _ _ hct]
    rw [dbErrorTryFrom, hL, hstep]

/-- C9 witness: the theorem applied to the pairs
`S → "ERROR"`, `C → "42601"`, `M → "boom"`: the loop consumes all three
pairs and stops past the terminator; replacing the terminator with the
unrecognised tag `X` (0x58) makes parsing fail. -/
theorem C9_db_error_pairs_and_unknown_tag_witness :
    (∃ acc, dbErrorLoop
        (encodePairs [(83, [69, 82, 82, 79, 82]), (67, [52, 50, 54, 48, 49]),
          (77, [98, 111, 111, 109])] ++ [0]) 0 {} = .ok (acc, 21)) ∧
    dbErrorTryFrom
        (encodePairs [(83, [69, 82, 82, 79, 82]), (67, [52, 50, 54, 48, 49]),
          (77, [98, 111, 111, 109])] ++ 88 :: [120, 0]) =
      .error .AtoiInvalidBytes := by
  have h := C9_db_error_pairs_and_unknown_tag
    [(83, [69, 82, 82, 79, 82]), (67, [52, 50, 54, 48, 49]),
      (77, [98, 111, 111, 109])] (by decide)
  exact ⟨h.1, h.2 88 [120, 0] (by decide) (by decide)⟩

/-! ## Postgres numeric ↔ decimal
(`database/client/postgres/tys.rs`, modules `pg_numeric` and `rust_decimal`)

`rust_decimal::Decimal` is an external crate: it is embedded as a sign flag,
a 96-bit mantissa and a scale `≤ 28`; its checked arithmetic is modelled
exactly on the representable range, and conservatively as failure where
the crate would fall back to rounding — the proofs show those fallbacks are
never reached on the inputs they cover. -/

/-- `rust_decimal::Decimal`: sign flag, 96-bit mantissa, scale. -/
structure RDecimal where
  neg : Bool
  mantissa : Nat
  scale : Nat
  deriving DecidableEq, Repr

/-- `pg_numeric::Sign`. -/
inductive Sign where
  | Negative
  | Positive
  deriving DecidableEq, Repr

/-- `u16::from(Sign)` (`SIGN_NEG` / `SIGN_POS`). -/
def signToU16 : Sign → Nat
  | .Negative => 0x4000
  | .Positive => 0x0000

/-- `TryFrom<u16> for Sign`. -/
def signTryFrom (from_ : Nat) : Except Err Sign :=
  if from_ = 0xC000 then .error .DecimalCanNotBeConvertedFromNaN
  else if from_ = 0x4000 then .ok .Negative
  else if from_ = 0x0000 then .ok .Positive
  else .error (.MiscUnexpectedUint from_)

/-- `_PgNumeric`. Digits are the signed 16-bit wire values. -/
inductive PgNumeric where
  | NaN
  | Number (digits : List Int) (scale : Nat) (sign : Sign) (weight : Int)
  deriving DecidableEq, Repr

/-- `Encode<Postgres> for _PgNumeric`: `(ndigits, weight, sign, dscale)` as
16-bit big-endian fields followed by the digits. -/
def pgNumericEncode : PgNumeric → Except Err (List Nat)
  | .NaN => .ok (i16ToBeBytes 0 ++ i16ToBeBytes 0 ++ beBytes 2 0xC000 ++ beBytes 2 0)
  | .Number digits scale sign weight =>
    if digits.length > 32767 then .error .TryFromIntError
    else .ok (i16ToBeBytes digits.length ++ i16ToBeBytes weight ++
      beBytes 2 (signToU16 sign) ++ beBytes 2 scale ++
      (digits.map i16ToBeBytes).flatten)

/-- The digit-reading loop of `Decode<Postgres> for _PgNumeric`: reads up to
`n` 16-bit digits, leaving the remainder zero when bytes run out (the
source's pre-zeroed array with an early `break`). -/
def readDigits : Nat → List Nat → List Int
  | 0, _ => []
  | n + 1, i :: j :: rest => i16FromBeBytes [i, j] :: readDigits n rest
  | n + 1, _ => List.replicate (n + 1) 0

/-- `Decode<Postgres> for _PgNumeric`. -/
def pgNumericDecode (bytes : List Nat) : Except Err PgNumeric :=
  match bytes with
  | a :: b :: c :: d :: e :: f :: g :: h :: rest =>
    let digits := beVal [a, b]
    let weight := i16FromBeBytes [c, d]
    let sign := beVal [e, f]
    let scale := beVal [g, h]
    if sign = 0xC000 then .ok .NaN
    else if digits > 64 ∨ digits > 0x7FFF then .error .VeryLargeDecimal
    else
      match signTryFrom sign with
      | .error e2 => .error e2
      | .ok s => .ok (.Number (readDigits digits rest) scale s weight)
  | _ => .error (.UnexpectedBufferSize 8 bytes.length)

/-- A `rust_decimal` value mid-computation: signed numerator over
`10^scale`. -/
structure MDec where
  num : Int
  scale : Nat
  deriving DecidableEq, Repr

/-- Representability in `rust_decimal`: 96-bit magnitude, scale at most 28. -/
def repOk (num : Int) (scale : Nat) : Bool :=
  num.natAbs < 2 ^ 96 && scale ≤ 28

/-- `Decimal::from(10_000u16).checked_powi(e)`: non-negative exponents give
the exact integer power (overflow is failure); negative exponents give the
exact reciprocal, whose scale `4·|e|` must stay within 28. -/
def pow10000 (e : Int) : Option MDec :=
  if 0 ≤ e then
    if repOk (10 ^ (4 * e.toNat)) 0 then some ⟨10 ^ (4 * e.toNat), 0⟩ else none
  else
    if 4 * (-e).toNat ≤ 28 then some ⟨1, 4 * (-e).toNat⟩ else none

/-- `checked_mul`, exact on the representable range. -/
def mulM (x y : MDec) : Option MDec :=
  if repOk (x.num * y.num) (x.scale + y.scale) then
    some ⟨x.num * y.num, x.scale + y.scale⟩
  else none

/-- `checked_add`, exact on the representable range: scales are aligned
upward to the larger one. -/
def addM (x y : MDec) : Option MDec :=
  let s := max x.scale y.scale
  let n := x.num * 10 ^ (s - x.scale) + y.num * 10 ^ (s - y.scale)
  if repOk n s then some ⟨n, s⟩ else none

/-- Scale-up half of `rescale`: multiply by 10 while below the target and
still representable (stopping early on overflow, as the crate does). -/
def rescaleUpM (num : Int) (scale target : Nat) : MDec :=
  if h : scale < target ∧ (num * 10).natAbs < 2 ^ 96 then
    rescaleUpM (num * 10) (scale + 1) target
  else ⟨num, scale⟩
  termination_by target - scale
  decreasing_by omega

/-- Scale-down half of `rescale`: divide by the power of ten, rounding
half-up (the proofs only use exact divisions, where every rounding mode
agrees). -/
def rescaleDownM (num : Int) (scale target : Nat) : MDec :=
  let div := (10 : Int) ^ (scale - target)
  let q := num / div
  let r := num % div
  ⟨if 2 * r ≥ div then q + 1 else q, target⟩

/-- `Decimal::rescale`, target clamped to the crate's maximum scale 28. -/
def rescaleM (d : MDec) (target0 : Nat) : MDec :=
  let t := min target0 28
  if t < d.scale then rescaleDownM d.num d.scale t
  else rescaleUpM d.num d.scale t

/-- The digit loop of `Decode<Postgres> for Decimal`: each `operations()`
failure surfaces as `MISC_OutOfBoundsArithmetic`; `weight.checked_sub(1)`
fails only at `i16::MIN`. -/
def decimalDecodeLoop : List Int → Int → MDec → Except Err (MDec × Int)
  | [], w, acc => .ok (acc, w)
  | d :: rest, w, acc =>
    match (do
      let mul ← pow10000 w
      let part ← mulM ⟨d, 0⟩ mul
      let acc2 ← addM acc part
      let w2 ← if w > -32768 then some (w - 1) else none
      some (acc2, w2) : Option (MDec × Int)) with
    | none => .error .MiscOutOfBoundsArithmetic
    | some (acc2, w2) => decimalDecodeLoop rest w2 acc2

/-- `set_sign_positive(true)` / `set_sign_negative(true)` on the
accumulated value. -/
def setSign (x : MDec) : Sign → MDec
  | .Positive => ⟨(x.num.natAbs : Int), x.scale⟩
  | .Negative => ⟨-(x.num.natAbs : Int), x.scale⟩

/-- `Decode<Postgres> for Decimal`. -/
def decimalDecode (bytes : List Nat) : Except Err RDecimal := do
  let pg ← match pgNumericDecode bytes with
    | .error e => throw e
    | .ok pg => pure pg
  match pg with
  | .NaN => throw Err.DecimalCanNotBeConvertedFromNaN
  | .Number digits scale sign weight =>
    if digits.isEmpty then
      return ⟨false, 0, 0⟩
    else do
      let (acc, _) ← match decimalDecodeLoop digits weight ⟨0, 0⟩ with
        | .error e => throw e
        | .ok r => pure r
      let r := rescaleM (setSign acc sign) scale
      return ⟨sign == .Negative, r.num.natAbs, r.scale⟩

/-- The base-10000 digit extraction of `Encode<Postgres> for Decimal`
(the `while mantissa != 0` loop), least-significant first. -/
def toBase10000 (m : Nat) : List Nat :=
  if m = 0 then [] else m % 10000 :: toBase10000 (m / 10000)
  termination_by m
  decreasing_by exact Nat.div_lt_self (Nat.pos_of_ne_zero (by assumption)) (by norm_num)

/-- The `while let Some(&0) = digits.last() { pop }` loop. -/
def stripTrailingZeros (l : List Nat) : List Nat :=
  (l.reverse.dropWhile (· == 0)).reverse

/-- `Encode<Postgres> for Decimal`. -/
def decimalEncode (d : RDecimal) : Except Err (List Nat) :=
  if d.mantissa = 0 then
    pgNumericEncode (.Number [] 0 .Positive 0)
  else
    let scale := d.scale
    let diff := scale % 4
    let mantissa := if diff > 0 then d.mantissa * 10 ^ (4 - diff) else d.mantissa
    let digitsLE := toBase10000 mantissa
    if digitsLE.length > 64 then .error .CapacityOverflow
    else
      let digits := digitsLE.reverse
      let after_decimal := (scale + 3) / 4
      let weight : Int := (digits.length : Int) - after_decimal - 1
      let digits2 := stripTrailingZeros digits
      pgNumericEncode
        (.Number (digits2.map fun n : Nat => (n : Int)) scale
          (if d.neg then .Negative else .Positive) weight)

theorem toBase10000_eq (m : Nat) : toBase10000 m = Nat.digits 10000 m := by
  induction m using Nat.strong_induction_on with
  | _ m ih =>
    rw [toBase10000]
    by_cases h : m = 0
    · simp [h]
    · rw [if_neg h,
        Nat.digits_def' (by norm_num : (1 : Nat) < 10000) (Nat.pos_of_ne_zero h),
        ih (m / 10000) (Nat.div_lt_self (Nat.pos_of_ne_zero h) (by norm_num))]

/-- Value of a big-endian base-10000 digit list, as the decode loop
accumulates it. -/
def ofD (l : List Nat) : Nat :=
  l.foldl (fun a d => a * 10000 + d) 0

theorem ofD_reverse (l : List Nat) : ofD l.reverse = Nat.ofDigits 10000 l := by
  rw [ofD, List.foldl_reverse]
  induction l with
  | nil => rfl
  | cons hd tl ih =>
    rw [List.foldr_cons, ih, Nat.ofDigits_cons]
    omega

theorem takeWhile_zero_eq_replicate (l : List Nat) :
    l.takeWhile (· == 0) = List.replicate (l.takeWhile (· == 0)).length 0 := by
  apply List.eq_replicate_of_mem
  intro x hx
  have := List.mem_takeWhile_imp hx
  simpa using this

theorem ofDigits_replicate_zero (z : Nat) :
    Nat.ofDigits 10000 (List.replicate z 0) = 0 := by
  induction z with
  | zero => rfl
  | succ z ih => rw [List.replicate_succ, Nat.ofDigits_cons, ih]

/-- Splitting the little-endian digits of `p ≠ 0` at the low zeros:
`p = 10000^z * P'` where `P'` is the value of the stripped big-endian
digit list and `z` the number of stripped zeros. -/
theorem strip_split (p : Nat) :
    p = 10000 ^ ((Nat.digits 10000 p).takeWhile (· == 0)).length *
      ofD (stripTrailingZeros ((toBase10000 p).reverse)) ∧
    stripTrailingZeros ((toBase10000 p).reverse) =
      ((Nat.digits 10000 p).dropWhile (· == 0)).reverse := by
  have hsz : stripTrailingZeros ((toBase10000 p).reverse) =
      ((Nat.digits 10000 p).dropWhile (· == 0)).reverse := by
    rw [stripTrailingZeros, toBase10000_eq, List.reverse_reverse]
  refine ⟨?_, hsz⟩
  rw [hsz, ofD_reverse]
  conv_lhs => rw [← Nat.ofDigits_digits 10000 p,
    ← List.takeWhile_append_dropWhile (· == 0) (Nat.digits 10000 p)]
  rw [Nat.ofDigits_append]
  conv_lhs => rw [takeWhile_zero_eq_replicate]
  rw [ofDigits_replicate_zero, List.length_replicate]
  ring

theorem strip_ne_nil (p : Nat) (hp : p ≠ 0) :
    stripTrailingZeros ((toBase10000 p).reverse) ≠ [] := by
  rw [(strip_split p).2]
  simp only [ne_eq, List.reverse_eq_nil_iff, List.dropWhile_eq_nil_iff]
  intro hall
  have hnil : Nat.digits 10000 p ≠ [] := Nat.digits_ne_nil_iff_ne_zero.mpr hp
  have hlast := Nat.getLast_digit_ne_zero 10000 hp
  have := hall _ (List.getLast_mem hnil)
  simp at this
  exact hlast this

theorem strip_mem_lt (p : Nat) (d : Nat)
    (hd : d ∈ stripTrailingZeros ((toBase10000 p).reverse)) : d < 10000 := by
  rw [stripTrailingZeros, toBase10000_eq, List.reverse_reverse] at hd
  rw [List.mem_reverse] at hd
  exact Nat.digits_lt_base (by norm_num) ((List.dropWhile_sublist _).subset hd)

theorem digits_len_le_eight {p : Nat} (hp : p ≠ 0) (hlt : p < 2 ^ 96) :
    (Nat.digits 10000 p).length ≤ 8 := by
  have h := Nat.base_pow_length_digits_le 10000 p (by norm_num) hp
  have h2 : (10000 : Nat) * p < 10000 ^ 9 := by
    calc (10000 : Nat) * p < 10000 * 2 ^ 96 := by omega
    _ < 10000 ^ 9 := by norm_num
  have h3 : (10000 : Nat) ^ (Nat.digits 10000 p).length < 10000 ^ 9 := lt_of_le_of_lt h h2
  have := (Nat.pow_lt_pow_iff_right (by norm_num : 1 < 10000)).1 h3
  omega

theorem beBytes_two (v : Nat) : beBytes 2 v = [v / 256 % 256, v % 256] := by
  simp [beBytes, leBytes]

theorem i16ToBeBytes_pair (x : Int) :
    ∃ a b, i16ToBeBytes x = [a, b] := by
  rw [i16ToBeBytes, beBytes_two]
  exact ⟨_, _, rfl⟩

theorem beVal_of_i16ToBeBytes_nonneg {x : Int} (h0 : 0 ≤ x) (h2 : x < 32768) :
    beVal (i16ToBeBytes x) = x.toNat := by
  rw [i16ToBeBytes]
  have hmod : x % 65536 = x := Int.emod_eq_of_lt h0 (by omega)
  rw [hmod]
  exact beVal_beBytes_of_lt (by omega)

theorem readDigits_flatten (D : List Int)
    (hD : ∀ d ∈ D, -32768 ≤ d ∧ d < 32768) :
    readDigits D.length (D.map i16ToBeBytes).flatten = D := by
  induction D with
  | nil => rfl
  | cons d tl ih =>
    obtain ⟨hd1, hd2⟩ := hD d (List.mem_cons_self _ _)
    have htl : ∀ d ∈ tl, -32768 ≤ d ∧ d < 32768 :=
      fun d hdm => hD d (List.mem_cons_of_mem _ hdm)
    obtain ⟨a, b, hab⟩ := i16ToBeBytes_pair d
    have hrt := i16_roundtrip hd1 hd2
    rw [hab] at hrt
    simp only [List.map_cons, List.flatten_cons, hab, List.length_cons,
      List.cons_append, List.nil_append]
    rw [readDigits, hrt, ih htl]

/-- Decoding the bytes `_PgNumeric::encode` emits for a `Number` with at most
64 in-range digits reproduces the `Number` exactly. -/
theorem pgNumeric_wire_roundtrip (D : List Int) (s : Nat) (sg : Sign) (w : Int)
    (hlen : D.length ≤ 64) (hs : s < 65536)
    (hw1 : -32768 ≤ w) (hw2 : w < 32768)
    (hD : ∀ d ∈ D, -32768 ≤ d ∧ d < 32768) :
    ∃ bs, pgNumericEncode (.Number D s sg w) = .ok bs ∧
      pgNumericDecode bs = .ok (.Number D s sg w) := by
  refine ⟨_, by rw [pgNumericEncode, if_neg (by omega)], ?_⟩
  have hlb : (0 : Int) ≤ D.length := by positivity
  have hlv : beVal (i16ToBeBytes (D.length : Int)) = D.length := by
    rw [beVal_of_i16ToBeBytes_nonneg hlb (by exact_mod_cast by omega : (D.length : Int) < 32768)]
    simp
  obtain ⟨a0, a1, hL⟩ := i16ToBeBytes_pair (D.length : Int)
  obtain ⟨b0, b1, hW⟩ := i16ToBeBytes_pair w
  have hWr := i16_roundtrip hw1 hw2
  rw [hW] at hWr
  have hsgv : signToU16 sg < 65536 := by cases sg <;> simp [signToU16]
  rw [beBytes_two (signToU16 sg), beBytes_two s]
  rw [hL, hW]
  simp only [List.cons_append, List.nil_append, pgNumericDecode]
  have hLv : beVal [a0, a1] = D.length := by rw [← hL]; exact hlv
  have hsv2 : beVal [signToU16 sg / 256 % 256, signToU16 sg % 256] = signToU16 sg := by
    rw [← beBytes_two]
    exact beVal_beBytes_of_lt (by cases sg <;> simp [signToU16])
  have hsv3 : beVal [s / 256 % 256, s % 256] = s := by
    rw [← beBytes_two]
    exact beVal_beBytes_of_lt (by omega)
  rw [hLv, hWr, hsv2, hsv3]
  have hsgn : signToU16 sg ≠ 0xC000 := by cases sg <;> simp [signToU16]
  rw [if_neg hsgn, if_neg (by omega)]
  have hrd : readDigits D.length (D.map i16ToBeBytes).flatten = D :=
    readDigits_flatten D hD
  have hsg2 : signTryFrom (signToU16 sg) = .ok sg := by
    cases sg <;> rfl
  rw [hrd, hsg2]

/-- The numerator the decode loop accumulates: a digit with non-negative
exponent is added scaled up, a digit with negative exponent shifts the
numerator by one base-10000 place. -/
def loopNum : List Nat → Int → Nat → Nat
  | [], _, ν => ν
  | d :: rest, w, ν =>
      loopNum rest (w - 1)
        (if 0 ≤ w then ν + d * 10 ^ (4 * w.toNat) else ν * 10000 + d)

theorem loopNum_ge (E : List Nat) (w : Int) (ν : Nat) : ν ≤ loopNum E w ν := by
  induction E generalizing w ν with
  | nil => exact le_refl ν
  | cons d rest ih =>
    rw [loopNum]
    refine le_trans ?_ (ih (w - 1) _)
    by_cases h : 0 ≤ w
    · rw [if_pos h]; omega
    · rw [if_neg h]; nlinarith [Nat.zero_le d, Nat.zero_le ν]

theorem loopNum_closed (E : List Nat) (w : Int) (p : Nat) :
    loopNum E w (p * 10 ^ ((4 * (w + 1)).toNat)) =
      (E.foldl (fun a d => a * 10000 + d) p) *
        10 ^ ((4 * (w + 1 - E.length)).toNat) := by
  induction E generalizing w p with
  | nil => simp [loopNum]
  | cons d rest ih =>
    rw [loopNum, List.foldl_cons]
    have hE : (4 * (w - 1 + 1 - (rest.length : Int))).toNat =
        (4 * (w + 1 - ((d :: rest).length : Int))).toNat := by
      simp only [List.length_cons]
      push_cast
      omega
    by_cases h : 0 ≤ w
    · have h1 : ((4 * (w + 1)).toNat) = 4 * w.toNat + 4 := by omega
      have hstep : p * 10 ^ ((4 * (w + 1)).toNat) + d * 10 ^ (4 * w.toNat) =
          (p * 10000 + d) * 10 ^ ((4 * (w - 1 + 1)).toNat) := by
        rw [h1]
        have h2 : ((4 * (w - 1 + 1)).toNat) = 4 * w.toNat := by omega
        rw [h2, pow_add]
        ring
      rw [if_pos h, hstep, ih (w - 1) (p * 10000 + d), hE]
    · have h1 : ((4 * (w + 1)).toNat) = 0 := by omega
      have h2 : ((4 * (w - 1 + 1)).toNat) = 0 := by omega
      have hstep : p * 10 ^ ((4 * (w + 1)).toNat) * 10000 + d =
          (p * 10000 + d) * 10 ^ ((4 * (w - 1 + 1)).toNat) := by
        rw [h1, h2]
        ring
      rw [if_neg h, hstep, ih (w - 1) (p * 10000 + d), hE]

theorem ten_pow_lt_two_pow_96 {k : Nat} (hk : k ≤ 28) : (10 : Nat) ^ k < 2 ^ 96 := by
  calc (10 : Nat) ^ k ≤ 10 ^ 28 := Nat.pow_le_pow_right (by norm_num) hk
  _ < 2 ^ 96 := by norm_num

theorem natAbs_cast (n : Nat) : ((n : Int)).natAbs = n := Int.natAbs_ofNat n

theorem pow10000_nonneg {w : Int} (h : 0 ≤ w) (hw : w ≤ 7) :
    pow10000 w = some ⟨((10 ^ (4 * w.toNat) : Nat) : Int), 0⟩ := by
  rw [pow10000, if_pos h, if_pos]
  · congr 1
    push_cast
    rfl
  · rw [repOk]
    simp only [Bool.and_eq_true, decide_eq_true_eq]
    refine ⟨?_, by omega⟩
    have he : ((10 : Int) ^ (4 * w.toNat)).natAbs = (10 : Nat) ^ (4 * w.toNat) := by
      rw [show ((10 : Int) ^ (4 * w.toNat)) = (((10 ^ (4 * w.toNat) : Nat)) : Int) from by
        push_cast; rfl, natAbs_cast]
    rw [he]
    exact ten_pow_lt_two_pow_96 (by omega)

theorem pow10000_neg {w : Int} (h : ¬ 0 ≤ w) (hk : 4 * (-w).toNat ≤ 28) :
    pow10000 w = some ⟨1, 4 * (-w).toNat⟩ := by
  rw [pow10000, if_neg h, if_pos hk]

theorem mulM_nat (a b sb : Nat) (h1 : a * b < 2 ^ 96) (h2 : sb ≤ 28) :
    mulM ⟨(a : Int), 0⟩ ⟨(b : Int), sb⟩ = some ⟨((a * b : Nat) : Int), sb⟩ := by
  rw [mulM]
  simp only [zero_add]
  rw [if_pos]
  · congr 1
  · rw [repOk]
    simp only [Bool.and_eq_true, decide_eq_true_eq]
    refine ⟨?_, h2⟩
    rw [show ((a : Int) * (b : Int)) = ((a * b : Nat) : Int) from by push_cast; rfl,
      natAbs_cast]
    exact h1

theorem addM_nat (ν x σ sx : Nat) (hσ : σ ≤ sx)
    (hrep : ν * 10 ^ (sx - σ) + x < 2 ^ 96) (hsx : sx ≤ 28) :
    addM ⟨(ν : Int), σ⟩ ⟨(x : Int), sx⟩ =
      some ⟨((ν * 10 ^ (sx - σ) + x : Nat) : Int), sx⟩ := by
  rw [addM]
  simp only [max_eq_right hσ, Nat.sub_self, pow_zero, mul_one]
  rw [if_pos]
  · congr 1
    push_cast
    ring
  · rw [repOk]
    simp only [Bool.and_eq_true, decide_eq_true_eq]
    refine ⟨?_, hsx⟩
    rw [show ((ν : Int) * 10 ^ (sx - σ) + (x : Int)) =
        ((ν * 10 ^ (sx - σ) + x : Nat) : Int) from by push_cast; ring, natAbs_cast]
    exact hrep

theorem option_some_bind {α β : Type} (a : α) (f : α → Option β) :
    (some a >>= f) = f a := rfl

theorem decodeLoop_step (d : Int) (rest : List Int) (w : Int) (acc acc2 : MDec)
    (hsome : (do
      let mul ← pow10000 w
      let part ← mulM ⟨d, 0⟩ mul
      let a2 ← addM acc part
      let w2 ← if w > -32768 then some (w - 1) else none
      some (a2, w2) : Option (MDec × Int)) = some (acc2, w - 1)) :
    decimalDecodeLoop (d :: rest) w acc = decimalDecodeLoop rest (w - 1) acc2 := by
  rw [decimalDecodeLoop, hsome]

/-- The digit loop of the decimal decoder, on non-negative in-range digits
with in-range exponents, succeeds and computes `loopNum` at the expected
scale. -/
theorem decodeLoop_ok (E : List Nat) (w : Int) (ν σ : Nat)
    (hE : ∀ d ∈ E, d < 10000)
    (hw : w ≤ 7)
    (hwlo : -8 ≤ w - E.length)
    (hσfin : 4 * (((E.length : Int) - 1 - w).toNat) ≤ 28)
    (hσ : σ = (4 * (-(w + 1))).toNat ∨ (ν = 0 ∧ σ = 0))
    (hν : loopNum E w ν < 2 ^ 96) :
    decimalDecodeLoop (E.map fun n : Nat => (n : Int)) w ⟨(ν : Int), σ⟩ =
      .ok (⟨(loopNum E w ν : Int),
            if E.isEmpty then σ else 4 * (((E.length : Int) - 1 - w).toNat)⟩,
           w - E.length) := by
  induction E generalizing w ν σ with
  | nil =>
    simp only [List.map_nil, decimalDecodeLoop, loopNum, List.isEmpty_nil, if_true,
      List.length_nil, Nat.cast_zero]
    rw [show w - 0 = w from by omega]
  | cons d rest ih =>
    have hd : d < 10000 := hE d (List.mem_cons_self _ _)
    have hrest : ∀ x ∈ rest, x < 10000 := fun x hx => hE x (List.mem_cons_of_mem _ hx)
    have hlen : ((d :: rest).length : Int) = (rest.length : Int) + 1 := by
      simp
    have hrlen : (0 : Int) ≤ rest.length := by positivity
    have hw32 : w > -32768 := by
      have h8 : -8 ≤ w - ((d :: rest).length : Int) := hwlo
      omega
    have hν' : loopNum rest (w - 1)
        (if 0 ≤ w then ν + d * 10 ^ (4 * w.toNat) else ν * 10000 + d) < 2 ^ 96 := hν
    have hstep_le : (if 0 ≤ w then ν + d * 10 ^ (4 * w.toNat) else ν * 10000 + d)
        ≤ loopNum (d :: rest) w ν := loopNum_ge _ _ _
    have hfin_eq : (((rest.length : Int) - 1 - (w - 1)).toNat) =
        ((((d :: rest).length : Int) - 1 - w).toNat) := by
      rw [hlen]
      omega
    by_cases h : 0 ≤ w
    · have hσ0 : σ = 0 := by
        rcases hσ with h1 | ⟨-, h1⟩
        · rw [h1]; omega
        · exact h1
      subst hσ0
      have hν1 : ν + d * 10 ^ (4 * w.toNat) < 2 ^ 96 := by
        have := hstep_le
        rw [if_pos h] at this
        omega
      have hpow := pow10000_nonneg h hw
      have hmul := mulM_nat d (10 ^ (4 * w.toNat)) 0 (by omega) (by omega)
      have hadd := addM_nat ν (d * 10 ^ (4 * w.toNat)) 0 0 (le_refl 0)
        (by simp only [Nat.sub_self, pow_zero, mul_one]; exact hν1) (by omega)
      simp only [Nat.sub_self, pow_zero, mul_one] at hadd
      have hstep := decodeLoop_step (d : Int) (rest.map fun n : Nat => (n : Int)) w
        ⟨(ν : Int), 0⟩ ⟨((ν + d * 10 ^ (4 * w.toNat) : Nat) : Int), 0⟩
        (by
          rw [hpow]
          simp only [option_some_bind]
          rw [hmul]
          simp only [option_some_bind]
          rw [hadd]
          simp only [option_some_bind, if_pos hw32])
      simp only [List.map_cons]
      rw [hstep]
      have hrec := ih (w - 1) (ν + d * 10 ^ (4 * w.toNat)) 0 hrest (by omega)
        (by rw [hlen] at hwlo; omega)
        (by rw [hfin_eq]; exact hσfin)
        (Or.inl (by omega))
        (by rw [if_pos h] at hν'; exact hν')
      have hsc : (if rest.isEmpty then (0 : Nat)
          else 4 * (((rest.length : Int) - 1 - (w - 1)).toNat)) =
          4 * ((((d :: rest).length : Int) - 1 - w).toNat) := by
        cases rest with
        | nil =>
          simp only [List.isEmpty_nil, if_true, List.length_cons, List.length_nil]
          push_cast
          omega
        | cons b tl =>
          simp only [List.isEmpty_cons, Bool.false_eq_true, if_false]
          rw [hfin_eq]
      have hval : loopNum (d :: rest) w ν =
          loopNum rest (w - 1) (ν + d * 10 ^ (4 * w.toNat)) := by
        rw [loopNum, if_pos h]
      have hwt : w - ((d :: rest).length : Int) = w - 1 - rest.length := by
        rw [hlen]
        omega
      rw [hrec, hval, hsc, hwt]
      simp only [List.isEmpty_cons, Bool.false_eq_true, if_false]
    · -- negative exponent: the accumulator shifts one base-10000 place
      have hklo : 4 * (-w).toNat ≤ 28 := by
        have : (-w).toNat ≤ (((d :: rest).length : Int) - 1 - w).toNat := by
          rw [hlen]
          omega
        omega
      have hν1 : ν * 10000 + d < 2 ^ 96 := by
        have := hstep_le
        rw [if_neg h] at this
        omega
      have hpow := pow10000_neg h hklo
      have hmul := mulM_nat d 1 (4 * (-w).toNat) (by omega) hklo
      simp only [mul_one, Nat.cast_one] at hmul
      have hσle : σ ≤ 4 * (-w).toNat := by
        rcases hσ with h1 | ⟨-, h1⟩ <;> subst h1 <;> omega
      have hpow4 : ν * 10 ^ (4 * (-w).toNat - σ) + d = ν * 10000 + d ∨
          (ν = 0 ∧ ν * 10 ^ (4 * (-w).toNat - σ) + d = d) := by
        rcases hσ with h1 | ⟨h0, h1⟩
        · left
          subst h1
          have : 4 * (-w).toNat - (4 * (-(w + 1))).toNat = 4 := by omega
          rw [this]
          norm_num
        · right
          subst h0 h1
          simp
      have haddv : ν * 10 ^ (4 * (-w).toNat - σ) + d = ν * 10000 + d := by
        rcases hpow4 with h1 | ⟨h0, h1⟩
        · exact h1
        · subst h0
          simp
      have hadd := addM_nat ν d σ (4 * (-w).toNat) hσle (by rw [haddv]; exact hν1) hklo
      rw [haddv] at hadd
      have hstep := decodeLoop_step (d : Int) (rest.map fun n : Nat => (n : Int)) w
        ⟨(ν : Int), σ⟩ ⟨((ν * 10000 + d : Nat) : Int), 4 * (-w).toNat⟩
        (by
          rw [hpow]
          simp only [option_some_bind]
          rw [hmul]
          simp only [option_some_bind]
          rw [hadd]
          simp only [option_some_bind, if_pos hw32])
      simp only [List.map_cons]
      rw [hstep]
      have hσrec : 4 * (-w).toNat = (4 * (-(w - 1 + 1))).toNat := by omega
      have hrec := ih (w - 1) (ν * 10000 + d) (4 * (-w).toNat) hrest (by omega)
        (by rw [hlen] at hwlo; omega)
        (by rw [hfin_eq]; exact hσfin)
        (Or.inl hσrec)
        (by rw [if_neg h] at hν'; exact hν')
      have hsc : (if rest.isEmpty then (4 * (-w).toNat)
          else 4 * (((rest.length : Int) - 1 - (w - 1)).toNat)) =
          4 * ((((d :: rest).length : Int) - 1 - w).toNat) := by
        cases rest with
        | nil =>
          simp only [List.isEmpty_nil, if_true, List.length_cons, List.length_nil]
          push_cast
          omega
        | cons b tl =>
          simp only [List.isEmpty_cons, Bool.false_eq_true, if_false]
          rw [hfin_eq]
      have hval : loopNum (d :: rest) w ν =
          loopNum rest (w - 1) (ν * 10000 + d) := by
        rw [loopNum, if_neg h]
      have hwt : w - ((d :: rest).length : Int) = w - 1 - rest.length := by
        rw [hlen]
        omega
      rw [hrec, hval, hsc, hwt]
      simp only [List.isEmpty_cons, Bool.false_eq_true, if_false]

theorem rescaleUpM_add (num : Int) (s k : Nat)
    (hrep : num.natAbs * 10 ^ k < 2 ^ 96) :
    rescaleUpM num s (s + k) = ⟨num * 10 ^ k, s + k⟩ := by
  induction k generalizing num s with
  | zero =>
    rw [rescaleUpM, dif_neg (fun hc => absurd hc.1 (by omega))]
    simp
  | succ k ih =>
    have h10 : num.natAbs * 10 * 10 ^ k = num.natAbs * 10 ^ (k + 1) := by ring
    have hb : (num * 10).natAbs < 2 ^ 96 := by
      have h1 : (num * 10).natAbs = num.natAbs * 10 := by
        rw [Int.natAbs_mul]
        rfl
      have h2 : num.natAbs * 10 ≤ num.natAbs * 10 ^ (k + 1) := by
        calc num.natAbs * 10 = num.natAbs * 10 * 1 := by ring
        _ ≤ num.natAbs * 10 * 10 ^ k :=
          Nat.mul_le_mul (le_refl _) (Nat.one_le_pow _ _ (by norm_num))
        _ = num.natAbs * 10 ^ (k + 1) := h10
      omega
    rw [rescaleUpM, dif_pos ⟨by omega, hb⟩]
    have harg : (num * 10).natAbs * 10 ^ k < 2 ^ 96 := by
      rw [Int.natAbs_mul, show ((10 : Int).natAbs) = 10 from rfl, h10]
      exact hrep
    rw [show s + (k + 1) = (s + 1) + k from by omega, ih (num * 10) (s + 1) harg]
    simp only [MDec.mk.injEq]
    exact ⟨by ring, trivial⟩

theorem rescaleDownM_mul (c : Int) (s t : Nat) :
    rescaleDownM (c * 10 ^ (s - t)) s t = ⟨c, t⟩ := by
  rw [rescaleDownM]
  have hpos : (0 : Int) < 10 ^ (s - t) := pow_pos (by norm_num) _
  rw [Int.mul_emod_left, Int.mul_ediv_cancel c (by omega), if_neg (by omega)]

theorem rescaleM_signed (N m σf s : Nat) (e : Int) (he : e = 1 ∨ e = -1)
    (hs : s ≤ 28) (hid : N * 10 ^ s = m * 10 ^ σf) (hm96 : m < 2 ^ 96) :
    rescaleM ⟨e * (N : Int), σf⟩ s = ⟨e * (m : Int), s⟩ := by
  have h10 : (0 : Nat) < 10 := by norm_num
  rw [rescaleM]
  dsimp only
  rw [min_eq_left hs]
  by_cases hc : s < σf
  · rw [if_pos hc]
    have hN : N = m * 10 ^ (σf - s) := by
      refine Nat.eq_of_mul_eq_mul_right (pow_pos h10 s) ?_
      rw [mul_assoc, ← pow_add, show σf - s + s = σf from by omega]
      exact hid
    have hNi : e * (N : Int) = (e * (m : Int)) * 10 ^ (σf - s) := by
      rw [hN]
      push_cast
      ring
    rw [hNi, rescaleDownM_mul]
  · rw [if_neg hc]
    have hN : N * 10 ^ (s - σf) = m := by
      refine Nat.eq_of_mul_eq_mul_right (pow_pos h10 σf) ?_
      rw [mul_assoc, ← pow_add, show s - σf + σf = s from by omega]
      exact hid
    have habs : (e * (N : Int)).natAbs = N := by
      rcases he with rfl | rfl <;> simp
    have hrep : (e * (N : Int)).natAbs * 10 ^ (s - σf) < 2 ^ 96 := by
      rw [habs, hN]
      exact hm96
    rw [show s = σf + (s - σf) from by omega,
      rescaleUpM_add (e * (N : Int)) σf (s - σf) hrep]
    simp only [MDec.mk.injEq]
    refine ⟨?_, trivial⟩
    rw [mul_assoc]
    congr 1
    exact_mod_cast congrArg (fun n : Nat => (n : Int)) hN

theorem decimalDecode_number (bytes : List Nat) (digits : List Int) (scale : Nat)
    (sign : Sign) (weight : Int)
    (hpg : pgNumericDecode bytes = .ok (.Number digits scale sign weight))
    (hne : digits.isEmpty = false)
    (acc : MDec) (wf : Int)
    (hloop : decimalDecodeLoop digits weight ⟨0, 0⟩ = .ok (acc, wf)) :
    decimalDecode bytes = .ok ⟨sign == .Negative,
      (rescaleM (setSign acc sign) scale).num.natAbs,
      (rescaleM (setSign acc sign) scale).scale⟩ := by
  rw [decimalDecode]
  simp only [hpg, hne, hloop, pure_bind, Bool.false_eq_true, if_false]
  rfl

/-- C3 (amended): for every decimal with nonzero mantissa whose scale is at
most 28 and whose mantissa, once padded up to a whole number of base-10000
digits, still fits in 96 bits, `Encode` to a Postgres numeric followed by
`Decode` of the produced bytes returns the original value, including its
preserved scale. (The claim's universal form fails at zero: see the
counterexample.) -/
theorem C3_decimal_encode_decode_roundtrip (d : RDecimal)
    (hm : d.mantissa ≠ 0) (hs : d.scale ≤ 28)
    (hpad : (if d.scale % 4 > 0 then d.mantissa * 10 ^ (4 - d.scale % 4)
             else d.mantissa) < 2 ^ 96) :
    ∃ bs, decimalEncode d = .ok bs ∧ decimalDecode bs = .ok d := by
  obtain ⟨ng, m, s⟩ := d
  dsimp only at hm hs hpad
  set p : Nat := if s % 4 > 0 then m * 10 ^ (4 - s % 4) else m with hp
  have hm0 : 0 < m := Nat.pos_of_ne_zero hm
  have hmp : m ≤ p := by
    rw [hp]
    split
    · calc m = m * 1 := by ring
      _ ≤ m * 10 ^ (4 - s % 4) :=
        Nat.mul_le_mul (le_refl m) (Nat.one_le_pow _ _ (by norm_num))
    · exact le_refl m
  have hp0 : p ≠ 0 := by omega
  have hp96 : p < 2 ^ 96 := hpad
  have htb : toBase10000 p = Nat.digits 10000 p := toBase10000_eq p
  have hLd : (toBase10000 p).length = (Nat.digits 10000 p).length := by rw [htb]
  have hL8 : (Nat.digits 10000 p).length ≤ 8 := digits_len_le_eight hp0 hp96
  set E : List Nat := stripTrailingZeros ((toBase10000 p).reverse) with hE
  set z : Nat := ((Nat.digits 10000 p).takeWhile (· == 0)).length with hz
  have hsplit : p = 10000 ^ z * ofD E := (strip_split p).1
  have hE2 : E = ((Nat.digits 10000 p).dropWhile (· == 0)).reverse := (strip_split p).2
  have hEne : E ≠ [] := strip_ne_nil p hp0
  have hElt : ∀ x ∈ E, x < 10000 := fun x hx => strip_mem_lt p x hx
  have hzL : z + E.length = (Nat.digits 10000 p).length := by
    have h := congrArg List.length
      (List.takeWhile_append_dropWhile (· == 0) (Nat.digits 10000 p))
    rw [List.length_append] at h
    rw [hE2, List.length_reverse]
    exact h
  set ad : Nat := (s + 3) / 4 with had
  set pd : Nat := 4 * ad - s with hpd
  have hads : s + pd = 4 * ad := by omega
  have hpm : p = m * 10 ^ pd := by
    rw [hp]
    by_cases h4 : s % 4 > 0
    · rw [if_pos h4, show pd = 4 - s % 4 from by omega]
    · rw [if_neg h4, show pd = 0 from by omega, pow_zero, mul_one]
  set w : Int := ((toBase10000 p).length : Int) - (ad : Nat) - 1 with hw
  have hwv : w = ((Nat.digits 10000 p).length : Int) - (ad : Nat) - 1 := by
    rw [hw, hLd]
  have henc : decimalEncode ⟨ng, m, s⟩ =
      pgNumericEncode (.Number (E.map fun n : Nat => (n : Int)) s
        (if ng then Sign.Negative else Sign.Positive) w) := by
    rw [decimalEncode]
    dsimp only
    rw [if_neg hm, ← hp,
      if_neg (show ¬ (toBase10000 p).length > 64 from by omega),
      List.length_reverse]
  obtain ⟨bs, hbse, hbsd⟩ := pgNumeric_wire_roundtrip
    (E.map fun n : Nat => (n : Int)) s
    (if ng then Sign.Negative else Sign.Positive) w
    (by rw [List.length_map]; omega)
    (by omega)
    (by rw [hwv]; omega)
    (by rw [hwv]; omega)
    (by
      intro dd hdd
      rw [List.mem_map] at hdd
      obtain ⟨x, hx, rfl⟩ := hdd
      have hxl := hElt x hx
      omega)
  have hw7 : w ≤ 7 := by rw [hwv]; omega
  have hwlo : -8 ≤ w - (E.length : Int) := by rw [hwv]; omega
  have hσfin : 4 * (((E.length : Int) - 1 - w).toNat) ≤ 28 := by rw [hwv]; omega
  have hNc : loopNum E w 0 =
      ofD E * 10 ^ ((4 * (w + 1 - (E.length : Int))).toNat) := by
    have h := loopNum_closed E w 0
    rw [zero_mul] at h
    exact h
  have hchain : loopNum E w 0 * 10 ^ (s + pd) =
      p * 10 ^ (4 * (((E.length : Int) - 1 - w).toNat)) := by
    rw [hNc, hads, mul_assoc, ← pow_add,
      show (4 * (w + 1 - (E.length : Int))).toNat + 4 * ad =
        4 * (((E.length : Int) - 1 - w).toNat) + 4 * z from by omega,
      pow_add,
      show (10 : Nat) ^ (4 * z) = 10000 ^ z from by rw [pow_mul]; norm_num,
      hsplit]
    ring
  have hσle : 4 * (((E.length : Int) - 1 - w).toNat) ≤ s + pd := by
    rw [hwv] at *
    omega
  have hNle : loopNum E w 0 ≤ p := by
    have h1 : loopNum E w 0 * 10 ^ (s + pd) ≤ p * 10 ^ (s + pd) := by
      rw [hchain]
      exact Nat.mul_le_mul (le_refl p) (Nat.pow_le_pow_right (by norm_num) hσle)
    exact Nat.le_of_mul_le_mul_right h1 (pow_pos (show (0 : Nat) < 10 from by norm_num) _)
  have hN96 : loopNum E w 0 < 2 ^ 96 := by omega
  have hm96 : m < 2 ^ 96 := by omega
  have hid : loopNum E w 0 * 10 ^ s =
      m * 10 ^ (4 * (((E.length : Int) - 1 - w).toNat)) := by
    refine Nat.eq_of_mul_eq_mul_right (pow_pos (show (0 : Nat) < 10 from by norm_num) pd) ?_
    calc loopNum E w 0 * 10 ^ s * 10 ^ pd = loopNum E w 0 * 10 ^ (s + pd) := by
          rw [mul_assoc, ← pow_add]
    _ = p * 10 ^ (4 * (((E.length : Int) - 1 - w).toNat)) := hchain
    _ = m * 10 ^ pd * 10 ^ (4 * (((E.length : Int) - 1 - w).toNat)) := by rw [hpm]
    _ = m * 10 ^ (4 * (((E.length : Int) - 1 - w).toNat)) * 10 ^ pd := by ring
  obtain ⟨e0, et, hEeq⟩ := List.exists_cons_of_ne_nil hEne
  have hEfalse : E.isEmpty = false := by rw [hEeq]; rfl
  have hEmapfalse : (E.map fun n : Nat => (n : Int)).isEmpty = false := by
    rw [hEeq]
    rfl
  have hloop0 := decodeLoop_ok E w 0 0 hElt hw7 hwlo hσfin (Or.inr ⟨rfl, rfl⟩) hN96
  simp only [Nat.cast_zero, hEfalse, Bool.false_eq_true, if_false] at hloop0
  have hsetsign : setSign ⟨((loopNum E w 0 : Nat) : Int),
        4 * (((E.length : Int) - 1 - w).toNat)⟩
        (if ng then Sign.Negative else Sign.Positive) =
      ⟨(if ng then (-1 : Int) else 1) * ((loopNum E w 0 : Nat) : Int),
        4 * (((E.length : Int) - 1 - w).toNat)⟩ := by
    cases ng <;> simp [setSign, natAbs_cast]
  have hres := rescaleM_signed (loopNum E w 0) m
    (4 * (((E.length : Int) - 1 - w).toNat)) s
    (if ng then (-1 : Int) else 1) (by cases ng <;> simp) hs hid hm96
  have hdec := decimalDecode_number bs (E.map fun n : Nat => (n : Int)) s
    (if ng then Sign.Negative else Sign.Positive) w hbsd hEmapfalse
    ⟨((loopNum E w 0 : Nat) : Int), 4 * (((E.length : Int) - 1 - w).toNat)⟩
    (w - E.length) hloop0
  rw [hsetsign, hres] at hdec
  refine ⟨bs, henc.trans hbse, ?_⟩
  rw [hdec]
  cases ng
  · simp [natAbs_cast]
  · simp [natAbs_cast, Int.natAbs_neg]

/-- C3 counterexample: zero with scale 2 (the decimal `0.00`) encodes to a
numeric with no digits and dscale 0, which decodes to zero with scale 0 —
the scale is not preserved, refuting the claim's universal form. -/
theorem C3_counterexample :
    decimalEncode ⟨false, 0, 2⟩ = .ok [0, 0, 0, 0, 0, 0, 0, 0] ∧
    decimalDecode [0, 0, 0, 0, 0, 0, 0, 0] = .ok ⟨false, 0, 0⟩ ∧
    (⟨false, 0, 0⟩ : RDecimal) ≠ ⟨false, 0, 2⟩ :=
  ⟨rfl, rfl, by decide⟩

/-- Closed witness for the amended C3 roundtrip at the decimal `12.345`. -/
theorem C3_decimal_encode_decode_roundtrip_witness :
    ((⟨false, 12345, 3⟩ : RDecimal).mantissa ≠ 0 ∧
     (⟨false, 12345, 3⟩ : RDecimal).scale ≤ 28 ∧
     (if (⟨false, 12345, 3⟩ : RDecimal).scale % 4 > 0 then
        (⟨false, 12345, 3⟩ : RDecimal).mantissa *
          10 ^ (4 - (⟨false, 12345, 3⟩ : RDecimal).scale % 4)
      else (⟨false, 12345, 3⟩ : RDecimal).mantissa) < 2 ^ 96) ∧
    ∃ bs, decimalEncode ⟨false, 12345, 3⟩ = .ok bs ∧
      decimalDecode bs = .ok ⟨false, 12345, 3⟩ :=
  ⟨⟨by decide, by decide, by decide⟩,
   C3_decimal_encode_decode_roundtrip ⟨false, 12345, 3⟩
     (by decide) (by decide) (by decide)⟩

end Wtx
